import Mathlib

/-!
Verification development for the cleanhtml repository's markup-normalization
pipeline (src/lib/html-cleaner.ts).  The DOM document tree is embedded as an
inductive type of element / text / comment nodes; every pipeline stage of the
source file is translated as a pure function on that tree (an in-place
mutation of a node's child list becomes a function from the old child list to
the new one, and a child that may be removed, replaced or spliced is mapped to
the list of nodes that takes its place).  Strings are modelled as lists of
characters; the JavaScript regular expressions of the source are translated
into explicit character-level matchers.
-/

set_option maxRecDepth 20000

namespace CleanHtml

/-- Strings of the embedded program are lists of characters. -/
abbrev Str := List Char

/-- Whitespace class of JavaScript regular expressions (\s) and of
String.prototype.trim: tab, line feed, vertical tab, form feed, carriage
return, space, no-break space, and the Unicode space separators. -/
def isJsWs (c : Char) : Bool :=
  c = ' ' || c = '\t' || c = '\n' || c = '\r' ||
  c = '\x0b' || c = '\x0c' || c = '\u00A0' || c = '\u1680' ||
  ('\u2000' ≤ c && c ≤ '\u200A') ||
  c = '\u2028' || c = '\u2029' || c = '\u202F' || c = '\u205F' ||
  c = '\u3000' || c = '\uFEFF'

/-- Translation of String.prototype.trim: remove leading and trailing
whitespace. -/
def jsTrim (s : Str) : Str := (s.dropWhile isJsWs).rdropWhile isJsWs

/-- Lower-casing of a string, as used for tag-name comparisons. -/
def lowerStr (s : Str) : Str := s.map Char.toLower

/-- Upper-casing of a string; the DOM canonicalizes Element.tagName to
upper case for elements of an HTML document. -/
def upperStr (s : Str) : Str := s.map Char.toUpper

/-- Document-tree nodes: elements with a tag name, an ordered attribute list
and an ordered child list; text nodes; comment nodes. -/
inductive Node where
  | elem : Str → List (Str × Str) → List Node → Node
  | text : Str → Node
  | comment : Str → Node

mutual

def nodeDecEq : (a b : Node) → Decidable (a = b)
  | .elem t1 a1 c1, .elem t2 a2 c2 =>
    match decEq t1 t2, decEq a1 a2, nodeListDecEq c1 c2 with
    | isTrue h1, isTrue h2, isTrue h3 => isTrue (by subst h1 h2 h3; rfl)
    | isFalse h, _, _ => isFalse (by intro e; cases e; exact h rfl)
    | _, isFalse h, _ => isFalse (by intro e; cases e; exact h rfl)
    | _, _, isFalse h => isFalse (by intro e; cases e; exact h rfl)
  | .text s1, .text s2 =>
    match decEq s1 s2 with
    | isTrue h => isTrue (by subst h; rfl)
    | isFalse h => isFalse (by intro e; cases e; exact h rfl)
  | .comment s1, .comment s2 =>
    match decEq s1 s2 with
    | isTrue h => isTrue (by subst h; rfl)
    | isFalse h => isFalse (by intro e; cases e; exact h rfl)
  | .elem _ _ _, .text _ => isFalse (by intro e; cases e)
  | .elem _ _ _, .comment _ => isFalse (by intro e; cases e)
  | .text _, .elem _ _ _ => isFalse (by intro e; cases e)
  | .text _, .comment _ => isFalse (by intro e; cases e)
  | .comment _, .elem _ _ _ => isFalse (by intro e; cases e)
  | .comment _, .text _ => isFalse (by intro e; cases e)

def nodeListDecEq : (a b : List Node) → Decidable (a = b)
  | [], [] => isTrue rfl
  | [], _ :: _ => isFalse (by intro e; cases e)
  | _ :: _, [] => isFalse (by intro e; cases e)
  | x :: xs, y :: ys =>
    match nodeDecEq x y, nodeListDecEq xs ys with
    | isTrue h1, isTrue h2 => isTrue (by subst h1 h2; rfl)
    | isFalse h, _ => isFalse (by intro e; cases e; exact h rfl)
    | _, isFalse h => isFalse (by intro e; cases e; exact h rfl)

end

instance : DecidableEq Node := nodeDecEq

mutual

/-- DOM Node.textContent of a child list: concatenation of the payloads of all
descendant text nodes, in document order; comment nodes contribute nothing. -/
def textContentList : List Node → Str
  | [] => []
  | n :: ns => textContentNode n ++ textContentList ns

def textContentNode : Node → Str
  | .elem _ _ c => textContentList c
  | .text s => s
  | .comment _ => []

end

/-- Tags serialized (and parsed) without children and without a closing tag.
Mirrors VOID_ELEMENTS (html-cleaner.ts lines 10-13), which agrees with the
HTML serializer's void-element set. -/
def voidTags : List Str :=
  ["area".data, "base".data, "br".data, "col".data, "embed".data, "hr".data,
   "img".data, "input".data, "link".data, "meta".data, "param".data,
   "source".data, "track".data, "wbr".data]

/-- Escaping of one character of a text node, as the HTML fragment
serialization algorithm behind Element.innerHTML performs it. -/
def escTextChar (c : Char) : Str :=
  if c = '&' then "&amp;".data
  else if c = '<' then "&lt;".data
  else if c = '>' then "&gt;".data
  else if c = '\u00A0' then "&nbsp;".data
  else [c]

/-- Escaping of a text node payload for serialization. -/
def escText : Str → Str
  | [] => []
  | c :: cs => escTextChar c ++ escText cs

/-- Escaping of one character of an attribute value for serialization. -/
def escAttrChar (c : Char) : Str :=
  if c = '&' then "&amp;".data
  else if c = '"' then "&quot;".data
  else if c = '\u00A0' then "&nbsp;".data
  else [c]

/-- Escaping of an attribute value for serialization. -/
def escAttr : Str → Str
  | [] => []
  | c :: cs => escAttrChar c ++ escAttr cs

/-- Serialization of an attribute list: a leading space, the name, and the
double-quoted escaped value, for each attribute in order. -/
def serializeAttrs : List (Str × Str) → Str
  | [] => []
  | (n, v) :: rest => ' ' :: (n ++ '=' :: '"' :: escAttr v ++ '"' :: serializeAttrs rest)

mutual

/-- Modelled from the spec: the platform markup serializer (the external
collaborator behind Element.innerHTML).  Elements are emitted with
lower-cased tag name and their attributes; void elements have no closing tag;
text nodes are escaped; comment nodes are wrapped in comment markers. -/
def serializeNode : Node → Str
  | .elem t a c =>
    let tl := lowerStr t
    if voidTags.contains tl then
      '<' :: (tl ++ serializeAttrs a ++ ['>'])
    else
      '<' :: (tl ++ serializeAttrs a ++ ['>']) ++ serializeList c ++
        ('<' :: '/' :: tl ++ ['>'])
  | .text s => escText s
  | .comment s => '<' :: '!' :: '-' :: '-' :: (s ++ ['-', '-', '>'])

/-- Serialization of a node list (the innerHTML of its parent). -/
def serializeList : List Node → Str
  | [] => []
  | n :: ns => serializeNode n ++ serializeList ns

end

/-- Reading of an attribute (Element.getAttribute): the value of the first
attribute with the given name, if any. -/
def getAttr (a : List (Str × Str)) (n : Str) : Option Str :=
  (a.find? (fun p => decide (p.1 = n))).map (fun p => p.2)

/-- Case-insensitive literal match at the head of a string: the pattern is
given lower-cased and compared against lower-cased input characters (the /i
flag of the source regular expressions). -/
def ciPrefix : Str → Str → Bool
  | [], _ => true
  | _ :: _, [] => false
  | p :: ps, c :: cs => (Char.toLower c = p) && ciPrefix ps cs

/-- Match of the regular expression /font-weight:\s*(bold|700|800|900)/i at
the head of the string (html-cleaner.ts line 54). -/
def boldIndicatorAt (s : Str) : Bool :=
  if ciPrefix "font-weight:".data s then
    let r := (s.drop "font-weight:".data.length).dropWhile isJsWs
    ciPrefix "bold".data r || ciPrefix "700".data r ||
      ciPrefix "800".data r || ciPrefix "900".data r
  else false

/-- Test of /font-weight:\s*(bold|700|800|900)/i anywhere in the string. -/
def testBold : Str → Bool
  | [] => false
  | c :: cs => boldIndicatorAt (c :: cs) || testBold cs

/-- Match of the regular expression /font-style:\s*italic/i at the head of
the string (html-cleaner.ts line 55). -/
def italicIndicatorAt (s : Str) : Bool :=
  if ciPrefix "font-style:".data s then
    ciPrefix "italic".data ((s.drop "font-style:".data.length).dropWhile isJsWs)
  else false

/-- Test of /font-style:\s*italic/i anywhere in the string. -/
def testItalic : Str → Bool
  | [] => false
  | c :: cs => italicIndicatorAt (c :: cs) || testItalic cs

/-- Translation of checkForHeadingMarker (html-cleaner.ts lines 82-112): for a
paragraph element whose trimmed text content starts with one of the literal
case-sensitive markers H1: H2: H3: H4: (checked in that order), the
replacement heading element, whose text content is the remainder of the
trimmed text with the marker removed and trimmed again.  The DOM textContent
setter creates a single text child for a non-empty string and no child for
the empty string. -/
def checkForHeadingMarker (tag : Str) (children : List Node) : Option Node :=
  if tag = "P".data then
    let tc := jsTrim (textContentList children)
    let pick : Option (Str × Str) :=
      if "H1:".data.isPrefixOf tc then some ("H1".data, "H1:".data)
      else if "H2:".data.isPrefixOf tc then some ("H2".data, "H2:".data)
      else if "H3:".data.isPrefixOf tc then some ("H3".data, "H3:".data)
      else if "H4:".data.isPrefixOf tc then some ("H4".data, "H4:".data)
      else none
    match pick with
    | none => none
    | some (lvl, mk) =>
      let headingText := jsTrim (tc.drop mk.length)
      some (.elem lvl [] (if headingText = [] then [] else [.text headingText]))
  else none

/-- Names stripped unconditionally by the Tree Sanitizer
(html-cleaner.ts line 32). -/
def strippedAttrNames : List Str :=
  ["class".data, "style".data, "dir".data, "aria-level".data]

/-- Attribute stripping of processNode (html-cleaner.ts lines 31-44): remove
class/style/dir/aria-level, remove role when its value is exactly
presentation, then remove every attribute whose trimmed value is empty. -/
def stripAttrs (a : List (Str × Str)) : List (Str × Str) :=
  let a1 := a.filter (fun p => decide (¬ p.1 ∈ strippedAttrNames))
  let a2 :=
    if getAttr a1 "role".data = some "presentation".data then
      a1.filter (fun p => decide (p.1 ≠ "role".data))
    else a1
  a2.filter (fun p => decide (jsTrim p.2 ≠ []))

/-- Translation of the element part of processNode (html-cleaner.ts lines
27-79), taking the already-processed child list c1: attribute stripping, then
the heading-marker replacement, then the span handling.  Note the source
order: the style attribute has already been removed by the stripping at line
33 when line 53 reads it back, so the getAttribute call yields the empty
string here. -/
def processElement (t : Str) (a : List (Str × Str)) (c1 : List Node) : List Node :=
  match checkForHeadingMarker t c1 with
  | some h => [h]
  | none =>
    if t = "SPAN".data then
      if testBold ((getAttr (stripAttrs a) "style".data).getD []) then
        if testItalic ((getAttr (stripAttrs a) "style".data).getD []) then
          [.elem "STRONG".data [] [.elem "EM".data [] c1]]
        else [.elem "STRONG".data [] c1]
      else if testItalic ((getAttr (stripAttrs a) "style".data).getD []) then
        [.elem "EM".data [] c1]
      else c1
    else [.elem t (stripAttrs a) c1]

mutual

/-- Translation of the child loop of processNode (html-cleaner.ts lines
16-25): comment children are removed, element children are processed
recursively (each child is replaced by the node sequence processNode leaves in
its place), text children are untouched. -/
def processNodeList : List Node → List Node
  | [] => []
  | n :: ns => processChild n ++ processNodeList ns

/-- Processing of one child of a node by processNode: the recursion into the
child's own children happens first, then the element work of lines 27-79. -/
def processChild : Node → List Node
  | .comment _ => []
  | .text s => [.text s]
  | .elem t a c => processElement t a (processNodeList c)

end

/- Translation of the paragraph unwrapping inside a list item
(html-cleaner.ts lines 170-174): every paragraph element found anywhere below
the item is replaced by its own children (unwrapElement, lines 125-133); the
paragraph's attributes are discarded with it.  querySelectorAll snapshots the
paragraphs in document order, and unwrapping an outer paragraph keeps its
descendants in the tree, so the recursive splice below is the same
function. -/
mutual

/-- Unwrapping of every paragraph descendant in a child list. -/
def unwrapPs : List Node → List Node
  | [] => []
  | n :: rest => unwrapPsNode n ++ unwrapPs rest

/-- Unwrapping of the paragraphs below one node: a paragraph element is
replaced by its recursively unwrapped children, any other element keeps its
place with its children unwrapped. -/
def unwrapPsNode : Node → List Node
  | .elem t a c =>
    if t = "P".data then unwrapPs c else [.elem t a (unwrapPs c)]
  | n => [n]

end

/-- Translation of boldUpToColon (html-cleaner.ts lines 193-250) as a scan of
the snapshot of the item's children.  kept holds the children that stay in the
item ahead of the scan position (children that are neither text nor element
nodes are skipped in place); acc holds the nodes already moved into the
detached strong accumulator.  A text child containing a colon is split there,
with the strong inserted in its place; an element child whose text contains a
colon is moved whole into the strong, which is inserted at the front; an
element child that is already strong or bold aborts the function, losing the
accumulator's content; when the children run out without a colon, the
accumulated nodes are appended back to the item. -/
def boldScan (kept acc : List Node) : List Node → List Node
  | [] => kept ++ acc
  | .text s :: rest =>
    match s.findIdx? (fun c => decide (c = ':')) with
    | some i =>
      let beforeColon := s.take (i + 1)
      let afterColon := s.drop (i + 1)
      kept ++ Node.elem "STRONG".data [] (acc ++ [.text beforeColon]) ::
        (if afterColon = [] then rest else .text afterColon :: rest)
    | none => boldScan kept (acc ++ [.text s]) rest
  | .elem t a c :: rest =>
    if t = "STRONG".data ∨ t = "B".data then kept ++ .elem t a c :: rest
    else
      match (textContentList c).findIdx? (fun c => decide (c = ':')) with
      | some _ =>
        Node.elem "STRONG".data [] (acc ++ [.elem t a c]) :: (kept ++ rest)
      | none => boldScan kept (acc ++ [.elem t a c]) rest
  | n :: rest => boldScan (kept ++ [n]) acc rest

/-- First-child test of cleanListItems (html-cleaner.ts lines 178-182): the
auto-emphasis is skipped when the item's first child is an element that is
already strong or bold. -/
def liSkipsEmphasis (c1 : List Node) : Bool :=
  match c1.head? with
  | some (.elem t _ _) => decide (t = "STRONG".data ∨ t = "B".data)
  | _ => false

/-- Colon test and rewrite of the auto-emphasis pass: when the item's text
contains a colon at an offset strictly between 0 and 80, run boldUpToColon. -/
def liColonRewrite (c1 : List Node) : List Node :=
  match (textContentList c1).findIdx? (fun ch => decide (ch = ':')) with
  | some i => if 0 < i ∧ i < 80 then boldScan [] [] c1 else c1
  | none => c1

/-- Translation of the per-item work of cleanListItems (html-cleaner.ts lines
169-190): unwrap the paragraphs below the item; skip the auto-emphasis when
the item's first child is already a strong or bold element; otherwise run the
colon test and rewrite. -/
def transformLi (c : List Node) : List Node :=
  if liSkipsEmphasis (unwrapPs c) then unwrapPs c
  else liColonRewrite (unwrapPs c)

mutual

/-- Traversal applying the list-item work to every li element, outer items
before the items below them (the document order of the querySelectorAll
snapshot in cleanListItems, html-cleaner.ts lines 164-191; an item's rewrite
only touches its own subtree, and an item detached by the rewrite is mutated
without effect on the tree, so processing the items that remain below the
rewritten item afterwards computes the same final tree).  The fuel only bounds
the recursion depth; cleanListItems passes more than the traversal can
consume. -/
def cleanLiList : Nat → List Node → List Node
  | 0, ns => ns
  | _ + 1, [] => []
  | f + 1, n :: ns => cleanLiNode f n :: cleanLiList f ns

/-- Traversal of one node for cleanListItems. -/
def cleanLiNode : Nat → Node → Node
  | 0, n => n
  | f + 1, .elem t a c =>
    if t = "LI".data then .elem t a (cleanLiList f (transformLi c))
    else .elem t a (cleanLiList f c)
  | _ + 1, n => n

end

mutual

/-- Count of the nodes of a tree, used to pick a sufficient fuel. -/
def nodeCount : Node → Nat
  | .elem _ _ c => 1 + nodeCountList c
  | _ => 1

/-- Count of the nodes of a forest. -/
def nodeCountList : List Node → Nat
  | [] => 0
  | n :: ns => nodeCount n + nodeCountList ns

end

/-- Translation of cleanListItems (html-cleaner.ts lines 164-191) over the
body's child list.  Each item rewrite adds at most two nodes, so the fuel
below exceeds every path of the traversal. -/
def cleanListItems (ns : List Node) : List Node :=
  cleanLiList (8 * nodeCountList ns + 8) ns

/-- Names (and name-beginnings) of the useful attributes
(html-cleaner.ts line 115). -/
def usefulAttrNames : List Str :=
  ["href".data, "src".data, "alt".data, "title".data, "id".data,
   "name".data, "data-".data, "aria-".data, "role".data]

/-- Translation of hasUsefulAttributes (html-cleaner.ts lines 114-123): true
when some attribute's name starts with one of the useful names (the source
compares with startsWith for every entry). -/
def hasUsefulAttributes (a : List (Str × Str)) : Bool :=
  a.any (fun p => usefulAttrNames.any (fun u => u.isPrefixOf p.1))

/-- Tags exempt from the emptiness check of removeEmptyElements
(html-cleaner.ts line 156). -/
def selfClosingTags : List Str :=
  ["IMG".data, "BR".data, "HR".data, "INPUT".data, "META".data, "LINK".data]

mutual

/-- Translation of removeEmptyElements (html-cleaner.ts lines 135-162) over a
child list; a removed element contributes nothing. -/
def removeEmptyList : List Node → List Node
  | [] => []
  | n :: ns =>
    match removeEmptyNode n with
    | some m => m :: removeEmptyList ns
    | none => removeEmptyList ns

/-- Bottom-up emptiness pruning of one node: children first, then the
paragraph check on the trimmed innerHTML, then the general check for
non-self-closing elements without content and without useful attributes.
The body root is never passed to this function (the pipeline applies
removeEmptyList to the body's child list). -/
def removeEmptyNode : Node → Option Node
  | .elem t a c =>
    let c1 := removeEmptyList c
    let inner := jsTrim (serializeList c1)
    if t = "P".data ∧
        (inner = [] ∨ inner = "<br>".data ∨ lowerStr inner = "<br/>".data) then
      none
    else if ¬ selfClosingTags.contains t ∧ inner = [] ∧ ¬ hasUsefulAttributes a then
      none
    else some (.elem t a c1)
  | n => some n

end

/-- Character class [\s-] of PHONE_REGEX. -/
def isPhoneSep (c : Char) : Bool := isJsWs c || c = '-'

/-- Single-character match against a class. -/
def matchChar (p : Char → Bool) : Str → Option (Str × Str)
  | c :: cs => if p c then some ([c], cs) else none
  | [] => none

/-- Greedy optional single-character match (the ? quantifier on a class; in
every use below the class is disjoint from what follows, so the greedy choice
is the regular expression's). -/
def matchOpt (p : Char → Bool) : Str → Str × Str
  | c :: cs => if p c then ([c], cs) else ([], c :: cs)
  | [] => ([], [])

/-- Match of exactly n characters of a class. -/
def matchExact : Nat → (Char → Bool) → Str → Option (Str × Str)
  | 0, _, s => some ([], s)
  | k + 1, p, c :: cs =>
    if p c then (matchExact k p cs).map (fun r => (c :: r.1, r.2)) else none
  | _ + 1, _, [] => none

/-- Match of a literal string. -/
def matchLit : Str → Str → Option (Str × Str)
  | [], s => some ([], s)
  | c :: cs, d :: ds =>
    if d = c then (matchLit cs ds).map (fun r => (d :: r.1, r.2)) else none
  | _ :: _, [] => none

/-- First PHONE_REGEX alternative (html-cleaner.ts line 6), the international
form: +61 then an optional space, a digit, and two four-digit groups with
optional space or dash separators. -/
def phoneAlt1 (s : Str) : Option (Str × Str) :=
  (matchLit "+61".data s).bind fun r1 =>
  let r2 := matchOpt isJsWs r1.2
  (matchChar Char.isDigit r2.2).bind fun r3 =>
  let r4 := matchOpt isPhoneSep r3.2
  (matchExact 4 Char.isDigit r4.2).bind fun r5 =>
  let r6 := matchOpt isPhoneSep r5.2
  (matchExact 4 Char.isDigit r6.2).map fun r7 =>
  (r1.1 ++ r2.1 ++ r3.1 ++ r4.1 ++ r5.1 ++ r6.1 ++ r7.1, r7.2)

/-- Second PHONE_REGEX alternative, the parenthesized trunk-code landline:
(0X) then an optional space and two four-digit groups. -/
def phoneAlt2 (s : Str) : Option (Str × Str) :=
  (matchLit "(0".data s).bind fun r1 =>
  (matchChar Char.isDigit r1.2).bind fun r2 =>
  (matchLit ")".data r2.2).bind fun r3 =>
  let r4 := matchOpt isJsWs r3.2
  (matchExact 4 Char.isDigit r4.2).bind fun r5 =>
  let r6 := matchOpt isPhoneSep r5.2
  (matchExact 4 Char.isDigit r6.2).map fun r7 =>
  (r1.1 ++ r2.1 ++ r3.1 ++ r4.1 ++ r5.1 ++ r6.1 ++ r7.1, r7.2)

/-- Third PHONE_REGEX alternative, the bare trunk-code landline:
0 then one of 2,3,4,7,8 and two four-digit groups. -/
def phoneAlt3 (s : Str) : Option (Str × Str) :=
  (matchChar (fun c => c = '0') s).bind fun r1 =>
  (matchChar (fun c => c = '2' || c = '3' || c = '4' || c = '7' || c = '8') r1.2).bind fun r2 =>
  let r3 := matchOpt isJsWs r2.2
  (matchExact 4 Char.isDigit r3.2).bind fun r4 =>
  let r5 := matchOpt isPhoneSep r4.2
  (matchExact 4 Char.isDigit r5.2).map fun r6 =>
  (r1.1 ++ r2.1 ++ r3.1 ++ r4.1 ++ r5.1 ++ r6.1, r6.2)

/-- Fourth PHONE_REGEX alternative, the mobile form: 04 then two digits and
two three-digit groups. -/
def phoneAlt4 (s : Str) : Option (Str × Str) :=
  (matchLit "04".data s).bind fun r1 =>
  (matchExact 2 Char.isDigit r1.2).bind fun r2 =>
  let r3 := matchOpt isPhoneSep r2.2
  (matchExact 3 Char.isDigit r3.2).bind fun r4 =>
  let r5 := matchOpt isPhoneSep r4.2
  (matchExact 3 Char.isDigit r5.2).map fun r6 =>
  (r1.1 ++ r2.1 ++ r3.1 ++ r4.1 ++ r5.1 ++ r6.1, r6.2)

/-- Fifth PHONE_REGEX alternative, the toll-free form: 1300 or 1800 then two
three-digit groups. -/
def phoneAlt5 (s : Str) : Option (Str × Str) :=
  (matchChar (fun c => c = '1') s).bind fun r1 =>
  (matchChar (fun c => c = '3' || c = '8') r1.2).bind fun r2 =>
  (matchLit "00".data r2.2).bind fun r3 =>
  let r4 := matchOpt isPhoneSep r3.2
  (matchExact 3 Char.isDigit r4.2).bind fun r5 =>
  let r6 := matchOpt isPhoneSep r5.2
  (matchExact 3 Char.isDigit r6.2).map fun r7 =>
  (r1.1 ++ r2.1 ++ r3.1 ++ r4.1 ++ r5.1 ++ r6.1 ++ r7.1, r7.2)

/-- Match of PHONE_REGEX at the head of the string: the five alternatives in
source order, the first success winning, as regular-expression alternation
does. -/
def phoneMatchAt (s : Str) : Option (Str × Str) :=
  match phoneAlt1 s with
  | some r => some r
  | none =>
    match phoneAlt2 s with
    | some r => some r
    | none =>
      match phoneAlt3 s with
      | some r => some r
      | none =>
        match phoneAlt4 s with
        | some r => some r
        | none => phoneAlt5 s

/-- Character class of the local part of EMAIL_REGEX
(html-cleaner.ts line 8). -/
def isLocalChar (c : Char) : Bool :=
  c.isAlpha || c.isDigit || c = '.' || c = '_' || c = '%' || c = '+' || c = '-'

/-- Character class of the domain part of EMAIL_REGEX. -/
def isDomainChar (c : Char) : Bool :=
  c.isAlpha || c.isDigit || c = '.' || c = '-'

/-- Backtracking split of the maximal domain-class run for EMAIL_REGEX: the
greedy domain prefers the rightmost dot that is followed by at least two
letters; returns the part before the dot, the letter run after it, and the
unconsumed remainder of the run. -/
def domainSplit : Str → Option (Str × Str × Str)
  | [] => none
  | c :: cs =>
    match domainSplit cs with
    | some (pre, al, rest) => some (c :: pre, al, rest)
    | none =>
      if c = '.' then
        let al := cs.takeWhile Char.isAlpha
        if 2 ≤ al.length then some ([], al, cs.drop al.length) else none
      else none

/-- Match of EMAIL_REGEX at the head of the string: a non-empty local-part
run, an at sign, then the maximal domain-class run split at the rightmost dot
followed by a letter run of length at least two; the part before that dot must
be non-empty. -/
def emailMatchAt (s : Str) : Option (Str × Str) :=
  let loc := s.takeWhile isLocalChar
  if loc = [] then none
  else
    match s.drop loc.length with
    | '@' :: rest =>
      let dom := rest.takeWhile isDomainChar
      match domainSplit dom with
      | some (pre, al, tail2) =>
        if pre = [] then none
        else some (loc ++ '@' :: pre ++ '.' :: al, tail2 ++ rest.drop dom.length)
      | none => none
    | _ => none

/-- Match of the combined pattern (PHONE_REGEX)|(EMAIL_REGEX) built at
html-cleaner.ts lines 265-268: the phone group is tried first; the Boolean
records which group matched. -/
def combinedMatchAt (s : Str) : Option (Bool × Str × Str) :=
  match phoneMatchAt s with
  | some (m, r) => some (true, m, r)
  | none =>
    match emailMatchAt s with
    | some (m, r) => some (false, m, r)
    | none => none

/-- Character class [\s()-] stripped from a phone match for the tel target
(html-cleaner.ts line 291). -/
def stripTelChar (c : Char) : Bool := isJsWs c || c = '(' || c = ')' || c = '-'

/-- Digits kept for the tel target: the matched text with spaces, parentheses
and dashes removed. -/
def telDigits (m : Str) : Str := m.filter (fun c => ! stripTelChar c)

/-- Anchor element built for one match (html-cleaner.ts lines 286-296). -/
def mkAnchor (href : Str) (txt : Str) : Node :=
  .elem "A".data [("href".data, href)] [.text txt]

/-- Scan of one text payload for the Auto-Linker (html-cleaner.ts lines
263-307): matches are found left to right, the scan advancing one character
when nothing matches at the current position and continuing after the matched
text otherwise.  Returns the replacement fragment when at least one match was
found, and none when the text has no match (the source leaves such a text
node untouched).  pending accumulates the unmatched text before the next
match.  The fuel is the length of the text; every step consumes at least one
character, so it never runs out. -/
def linkScan : Nat → Str → Str → Option (List Node)
  | _, _, [] => none
  | 0, _, _ :: _ => none
  | f + 1, pending, c :: cs =>
    match combinedMatchAt (c :: cs) with
    | some (isPhone, m, r) =>
      some ((if pending = [] then [] else [Node.text pending]) ++
        mkAnchor
          (if isPhone then "tel:".data ++ telDigits m else "mailto:".data ++ m) m ::
        (match linkScan f [] r with
         | some frags => frags
         | none => if r = [] then [] else [.text r]))
    | none => linkScan f (pending ++ [c]) cs

/-- Replacement computed by the Auto-Linker for one text node: the fragment of
literal text pieces and anchors when the text has a match, and the unchanged
text node otherwise. -/
def linkTextFrags (s : Str) : List Node :=
  match linkScan s.length [] s with
  | some frags => frags
  | none => [.text s]

mutual

/-- Translation of autoLinkEmailsAndPhones (html-cleaner.ts lines 252-311)
over a child list.  The walker snapshots every text node and skips those with
a hyperlink ancestor (parentElement.closest applied to the anchor tag); the
flag records whether an ancestor is an anchor.  Replacement text nodes
produced by an earlier rewrite are not in the snapshot and are not rescanned,
which the single pass below reproduces. -/
def autoLinkList (inA : Bool) : List Node → List Node
  | [] => []
  | n :: ns => autoLinkNode inA n ++ autoLinkList inA ns

/-- Auto-linking below one node. -/
def autoLinkNode (inA : Bool) : Node → List Node
  | .text s => if inA then [.text s] else linkTextFrags s
  | .elem t a c => [.elem t a (autoLinkList (inA || t == "A".data) c)]
  | n => [n]

end

/-- Composition of the four tree stages of cleanHTML (html-cleaner.ts lines
318-321) on the body's child list. -/
def cleanTree (ns : List Node) : List Node :=
  autoLinkList false (removeEmptyList (cleanListItems (processNodeList ns)))

/-- Character allowed in a tag name by the modelled parser. -/
def isTagNameChar (c : Char) : Bool := c.isAlpha || c.isDigit

/-- Character allowed in an attribute name by the modelled parser. -/
def isAttrNameChar (c : Char) : Bool :=
  !(isJsWs c) && c ≠ '=' && c ≠ '>' && c ≠ '/' && c ≠ '"'

/-- Modelled from the spec: the attribute scanner of the platform markup
parser (the external collaborator of section 6 of the spec).  Reads the
attributes of an open tag up to the closing angle bracket; attribute names
are lower-cased as the DOM does; values are double-quoted; a bare name gets
the empty value.  Returns the attributes, whether the tag ended in a
self-closing slash, and the rest of the input. -/
def parseAttrs : Nat → Str → List (Str × Str) × Bool × Str
  | 0, s => ([], false, s)
  | f + 1, s =>
    let s1 := s.dropWhile isJsWs
    match s1 with
    | '>' :: r => ([], false, r)
    | '/' :: '>' :: r => ([], true, r)
    | [] => ([], false, [])
    | _ =>
      let n := s1.takeWhile isAttrNameChar
      match s1.drop n.length with
      | '=' :: '"' :: r =>
        let v := r.takeWhile (fun c => decide (c ≠ '"'))
        let r2 := (r.drop v.length).drop 1
        let (rest, sc, tail2) := parseAttrs f r2
        ((lowerStr n, v) :: rest, sc, tail2)
      | s2 =>
        if n = [] then ([], false, s2.drop 1)
        else
          let (rest, sc, tail2) := parseAttrs f s2
          ((lowerStr n, []) :: rest, sc, tail2)

/-- Modelled from the spec: the platform markup parser (the external
collaborator of section 6 of the spec, DOMParser), restricted to the
well-formed fragment subset exercised in this file: elements with
double-quoted attributes, text, and void elements; no character references
and no comment syntax appear in the inputs parsed here.  Tag names are
canonicalized to upper case as Element.tagName reports them.  Returns the
parsed sibling nodes and stops in front of a closing tag, which the caller
consumes. -/
def parseNodes : Nat → Str → List Node × Str
  | 0, s => ([], s)
  | f + 1, s =>
    match s with
    | [] => ([], [])
    | '<' :: '/' :: r => ([], '<' :: '/' :: r)
    | '<' :: r =>
      let n := r.takeWhile isTagNameChar
      if n = [] then
        let (ns, rest) := parseNodes f r
        (.text ['<'] :: ns, rest)
      else
        let tag := upperStr n
        let (attrs, selfClosed, rest) := parseAttrs f (r.drop n.length)
        if selfClosed || voidTags.contains (lowerStr tag) then
          let (ns, rest2) := parseNodes f rest
          (.elem tag attrs [] :: ns, rest2)
        else
          let (children, rest2) := parseNodes f rest
          let rest3 :=
            match rest2 with
            | '<' :: '/' :: r2 =>
              ((r2.dropWhile (fun c => decide (c ≠ '>'))).drop 1)
            | r2 => r2
          let (ns, rest4) := parseNodes f rest3
          (.elem tag attrs children :: ns, rest4)
    | _ =>
      let txt := s.takeWhile (fun c => decide (c ≠ '<'))
      let (ns, rest) := parseNodes f (s.drop txt.length)
      (.text txt :: ns, rest)

/-- Parsing of a markup fragment into the body's child list. -/
def parseFragment (s : Str) : List Node :=
  (parseNodes (2 * s.length + 8) s).1

/-- Translation of cleanHTML (html-cleaner.ts lines 313-324): parse the input
as the body of a document, run the four tree stages, and return the trimmed
serialization of the body's children. -/
def cleanHtmlChars (s : Str) : Str :=
  jsTrim (serializeList (cleanTree (parseFragment s)))

/-- Translation of cleanHTML at the string type. -/
def cleanHTML (html : String) : String :=
  String.mk (cleanHtmlChars html.data)

/-- Translation of the replace of /\n\s*/g with the empty string
(html-cleaner.ts line 374) as a character scan: a line feed starts a skip of
the following whitespace run; everything else is kept. -/
def stripNlAux : Bool → Str → Str
  | _, [] => []
  | true, c :: cs => if isJsWs c then stripNlAux true cs else c :: stripNlAux false cs
  | false, c :: cs => if c = '\n' then stripNlAux true cs else c :: stripNlAux false cs

/-- Removal of every line feed together with the whitespace run after it. -/
def stripNl (s : Str) : Str := stripNlAux false s

/-- Translation of the replace of />\s+</g with the two brackets
(html-cleaner.ts lines 328 and 375) as a character scan.  The state buffers
the whitespace run seen after a closing angle bracket (in reverse); when an
opening angle bracket follows a non-empty run, the run is dropped, otherwise
the buffer is flushed.  The scan resumes after a replaced match exactly as the
global replace does. -/
def collapseAux : Option Str → Str → Str
  | none, [] => []
  | some buf, [] => buf.reverse
  | none, c :: cs =>
    if c = '>' then '>' :: collapseAux (some []) cs
    else c :: collapseAux none cs
  | some buf, c :: cs =>
    if c = '<' then '<' :: collapseAux none cs
    else if isJsWs c then collapseAux (some (c :: buf)) cs
    else
      buf.reverse ++
        (if c = '>' then '>' :: collapseAux (some []) cs
         else c :: collapseAux none cs)

/-- Collapse of inter-tag whitespace: every whitespace run between a closing
and an opening angle bracket is removed. -/
def collapseChars (s : Str) : Str := collapseAux none s

/-- Translation of minifyHTML (html-cleaner.ts lines 372-377): remove line
feeds with their trailing whitespace, collapse inter-tag whitespace, and trim
the result. -/
def minifyChars (s : Str) : Str := jsTrim (collapseChars (stripNl s))

/-- Translation of minifyHTML at the string type. -/
def minifyHTML (html : String) : String :=
  String.mk (minifyChars html.data)

/-- Tokenizer of beautifyHTML (html-cleaner.ts lines 329-350) as a character
scan.  In tag state (entered at an opening angle bracket) characters are
accumulated until the closing angle bracket, which ends the tag token; an
unterminated tag at the end of the input is emitted as a final literal token.
In text state characters are accumulated until the next opening angle
bracket; a text token is kept only when it trims non-empty, except that the
trailing text at the end of the input is pushed unconditionally.  The
accumulator is kept reversed. -/
def tokAux : Bool → Str → Str → List Str
  | false, acc, [] => if acc = [] then [] else [acc.reverse]
  | true, acc, [] => [acc.reverse]
  | false, acc, c :: cs =>
    if c = '<' then
      (if jsTrim acc.reverse = [] then [] else [acc.reverse]) ++ tokAux true [c] cs
    else tokAux false (c :: acc) cs
  | true, acc, c :: cs =>
    if c = '>' then (c :: acc).reverse :: tokAux false [] cs
    else tokAux true (c :: acc) cs

/-- Token list of beautifyHTML: inter-tag whitespace collapsed first
(html-cleaner.ts line 328), then the scan above. -/
def htmlTokens (s : Str) : List Str := tokAux false [] (collapseChars s)

/-- Word character class \w of the tag-name regular expression. -/
def isWordChar (c : Char) : Bool := c.isAlpha || c.isDigit || c = '_'

/-- Match of the tag-name pattern at the head of the string: an opening angle
bracket, an optional slash, a non-empty word run, then a whitespace character
or a closing angle bracket; returns the captured run and the input after the
class character. -/
def tagMatchHead (s : Str) : Option (Str × Str) :=
  match s with
  | '<' :: r =>
    let r2 := match r with
      | '/' :: r3 => r3
      | _ => r
    let run := r2.takeWhile isWordChar
    if run = [] then none
    else
      match r2.drop run.length with
      | c :: rest => if isJsWs c || c = '>' then some (run, rest) else none
      | [] => none
  | _ => none

/-- Translation of the replace at html-cleaner.ts line 359: the first match of
the tag-name pattern is replaced by its captured word run; the dot-star of the
pattern consumes up to the next line feed, so the text from there on
survives. -/
def tagNameScan : Str → Str
  | [] => []
  | c :: cs =>
    match tagMatchHead (c :: cs) with
    | some (run, rest) => run ++ rest.dropWhile (fun ch => decide (ch ≠ '\n'))
    | none => c :: tagNameScan cs

/-- Tag name extracted from a token for the void check of beautifyHTML:
replace then lower-case. -/
def tagNameOf (tok : Str) : Str := lowerStr (tagNameScan tok)

/-- Indentation string of beautifyHTML: the two-space unit repeated.  The
running level is an integer clamped at zero before every use, so the cast to a
natural number below is exact. -/
def twoSpaces (d : Int) : Str := List.replicate (2 * d.toNat) ' '

/-- Line builder of beautifyHTML (html-cleaner.ts lines 352-368): a closing
tag decrements the level, clamping at zero, before being emitted; an opening
tag is emitted at the current level and increments it unless it is
self-closing, void, or declaration-like; a text token is emitted at the
current level. -/
def buildLines : List Str → Int → List Str
  | [], _ => []
  | tok :: rest, indent =>
    if "</".data.isPrefixOf tok then
      let ind := max 0 (indent - 1)
      (twoSpaces ind ++ tok) :: buildLines rest ind
    else if "<".data.isPrefixOf tok then
      let tn := tagNameOf tok
      let sc := "/>".data.isSuffixOf tok || voidTags.contains tn
      (twoSpaces indent ++ tok) ::
        buildLines rest
          (if !sc && !("<!".data.isPrefixOf tok) then indent + 1 else indent)
    else (twoSpaces indent ++ tok) :: buildLines rest indent

/-- Lines of beautifyHTML for a given input. -/
def beautifyLines (s : Str) : List Str := buildLines (htmlTokens s) 0

/-- Join of the emitted lines with line feeds. -/
def joinLines : List Str → Str
  | [] => []
  | [l] => l
  | l :: ls => l ++ '\n' :: joinLines ls

/-- Translation of beautifyHTML (html-cleaner.ts lines 326-370). -/
def beautifyChars (s : Str) : Str := joinLines (beautifyLines s)

/-- Translation of beautifyHTML at the string type. -/
def beautifyHTML (html : String) : String :=
  String.mk (beautifyChars html.data)

/-- Attribute condition of the Tree Sanitizer's output: the name is none of
class, style, dir, aria-level; the attribute is not role with the exact value
presentation; the trimmed value is non-empty. -/
def attrOk (p : Str × Str) : Bool :=
  decide (¬ p.1 ∈ strippedAttrNames ∧
    ¬ (p.1 = "role".data ∧ p.2 = "presentation".data) ∧ jsTrim p.2 ≠ [])

mutual

/-- Check that every element of a tree satisfies attrOk on all attributes. -/
def attrsOkNode : Node → Bool
  | .elem _ a c => a.all attrOk && attrsOkList c
  | _ => true

/-- Check of attrsOkNode over a forest. -/
def attrsOkList : List Node → Bool
  | [] => true
  | n :: ns => attrsOkNode n && attrsOkList ns

end

mutual

/-- Check that every non-self-closing element of a tree has non-empty trimmed
serialized content or a useful attribute in the sense of the source's
hasUsefulAttributes (name starting with one of the useful names). -/
def prunedOkNode : Node → Bool
  | .elem t a c =>
    (selfClosingTags.contains t || decide (jsTrim (serializeList c) ≠ []) ||
      hasUsefulAttributes a) && prunedOkList c
  | _ => true

/-- Check of prunedOkNode over a forest. -/
def prunedOkList : List Node → Bool
  | [] => true
  | n :: ns => prunedOkNode n && prunedOkList ns

end

/-- Formalization of the useful-attribute set as claim C4 words it: a name
that is exactly href, src, alt, title, id, name, or role, or is prefixed
data- or aria-. -/
def claimUsefulAttr (p : Str × Str) : Bool :=
  decide (p.1 ∈ ["href".data, "src".data, "alt".data, "title".data,
                 "id".data, "name".data, "role".data]) ||
  "data-".data.isPrefixOf p.1 || "aria-".data.isPrefixOf p.1

mutual

/-- Check of claim C4 as stated: every element whose tag is not in the
void/self-closing set has non-empty trimmed serialized inner content or an
attribute of the claim's exact useful set. -/
def claimEmptyOkNode : Node → Bool
  | .elem t a c =>
    (selfClosingTags.contains t || decide (jsTrim (serializeList c) ≠ []) ||
      a.any claimUsefulAttr) && claimEmptyOkList c
  | _ => true

/-- Check of claimEmptyOkNode over a forest. -/
def claimEmptyOkList : List Node → Bool
  | [] => true
  | n :: ns => claimEmptyOkNode n && claimEmptyOkList ns

end

/-- Check of claim C8 as stated on one hyperlink target: after the tel scheme
every character is a decimal digit. -/
def telAllDigits (h : Str) : Bool :=
  if "tel:".data.isPrefixOf h then (h.drop 4).all Char.isDigit else true

/-- Amended tel condition: after the tel scheme every character is a decimal
digit or the plus sign kept from the international form. -/
def telDigitsOrPlus (h : Str) : Bool :=
  if "tel:".data.isPrefixOf h then (h.drop 4).all (fun c => c.isDigit || c = '+')
  else true

mutual

/-- Check of a tel condition over every anchor of a tree. -/
def telOkNode (p : Str → Bool) : Node → Bool
  | .elem t a c =>
    (if t = "A".data then
       match getAttr a "href".data with
       | some h => p h
       | none => true
     else true) && telOkList p c
  | _ => true

/-- Check of telOkNode over a forest. -/
def telOkList (p : Str → Bool) : List Node → Bool
  | [] => true
  | n :: ns => telOkNode p n && telOkList p ns

end

/-- Claim C1: the spec promises that a span whose style sets font-weight to
bold becomes a strong element (with a nested em when font-style italic is also
present).  The code strips the style attribute (line 33) before the span
branch reads it back (line 53), so the bold and italic tests always run on the
empty string and every span is unwrapped: the pipeline maps both spec examples
to the bare text Note, not to strong markup.  This theorem evaluates the
pipeline at the two spec inputs and exhibits that behavior. -/
theorem claim1_bold_span_is_unwrapped_not_converted :
    cleanTree [.elem "SPAN".data [("style".data, "font-weight:bold".data)]
        [.text "Note".data]] = [.text "Note".data] ∧
    cleanTree [.elem "SPAN".data
        [("style".data, "font-weight:bold;font-style:italic".data)]
        [.text "Note".data]] = [.text "Note".data] ∧
    cleanHTML "<span style=\"font-weight:bold\">Note</span>" = "Note" := by
  refine ⟨by decide, by decide, by decide⟩

/-- Claim C2 counterexample: cleanHTML applied twice differs from cleanHTML
applied once on the input p 0404 1 span 23 456.  The first pass unwraps the
span, leaving the phone number split across two adjacent text nodes that the
Auto-Linker scans separately, so no link is made; reserialization merges them,
and the second pass links the now-contiguous number. -/
theorem claim2_idempotence_counterexample :
    cleanHTML (cleanHTML "<p>0404 1<span>23 456</span></p>") ≠
      cleanHTML "<p>0404 1<span>23 456</span></p>" := by
  decide

/-- Claim C2 amended: cleanHTML is not idempotent; there is a markup string on
which a second application changes the output again. -/
theorem claim2_not_idempotent :
    ∃ x : String, cleanHTML (cleanHTML x) ≠ cleanHTML x :=
  ⟨"<p>0404 1<span>23 456</span></p>", by decide⟩

/-- Claim C3: the spec promises that when the auto-emphasis colon scan of a
list item meets a strong or bold element child, the rewrite aborts with no net
mutation.  In the code the abort returns with the nodes already moved into the
detached strong accumulator still removed from the item, so they are lost: for
the item with children abc, strong x:, def the text node abc disappears.  This
theorem evaluates the pipeline at that input. -/
theorem claim3_abort_drops_moved_nodes :
    cleanTree [.elem "UL".data []
        [.elem "LI".data []
          [.text "abc".data, .elem "STRONG".data [] [.text "x:".data],
           .text "def".data]]] =
      [.elem "UL".data []
        [.elem "LI".data []
          [.elem "STRONG".data [] [.text "x:".data], .text "def".data]]] := by
  decide

/-- Claim C4 counterexample: an empty i element carrying only the attribute
identifier survives the whole pipeline, because hasUsefulAttributes compares
with startsWith and the name identifier starts with id; the claim's exact
useful set does not contain it, so the claimed invariant fails on this
output. -/
theorem claim4_empty_prune_counterexample :
    cleanTree [.elem "I".data [("identifier".data, "z".data)] []] =
      [.elem "I".data [("identifier".data, "z".data)] []] ∧
    claimEmptyOkList (cleanTree [.elem "I".data [("identifier".data, "z".data)] []]) =
      false := by
  refine ⟨by decide, by decide⟩

/-- Claim C7: the Auto-Linker replaces the text node Call 0412 345 678 or
email a@b.com with the literal text Call, a tel hyperlink wrapping the phone
number with the digits-only target, the literal text or email, and a mailto
hyperlink wrapping the address; the surrounding text is preserved verbatim. -/
theorem claim7_autolink_example :
    autoLinkList false [.text "Call 0412 345 678 or email a@b.com".data] =
      [.text "Call ".data,
       .elem "A".data [("href".data, "tel:0412345678".data)]
         [.text "0412 345 678".data],
       .text " or email ".data,
       .elem "A".data [("href".data, "mailto:a@b.com".data)]
         [.text "a@b.com".data]] := by
  decide

/-- Claim C8 counterexample: the international form keeps its plus sign, since
the replace at line 291 strips only whitespace, parentheses and dashes; the
anchor built for +61 2 3456 7890 has the target tel:+61234567890, whose first
character after the scheme is not a decimal digit. -/
theorem claim8_tel_digits_counterexample :
    autoLinkList false [.text "+61 2 3456 7890".data] =
      [.elem "A".data [("href".data, "tel:+61234567890".data)]
        [.text "+61 2 3456 7890".data]] ∧
    telOkList telAllDigits
      (autoLinkList false [.text "+61 2 3456 7890".data]) = false := by
  refine ⟨by decide, by decide⟩


/-- Well-formedness of a DOM attribute list: attribute names are pairwise
distinct, as Element.attributes guarantees. -/
def nodupAttrNames (a : List (Str × Str)) : Bool :=
  decide (a.map (fun p => p.1)).Nodup

mutual

/-- Well-formedness of a DOM tree: every element has pairwise distinct
attribute names. -/
def wfNode : Node → Bool
  | .elem _ a c => nodupAttrNames a && wfList c
  | _ => true

/-- Well-formedness of a forest. -/
def wfList : List Node → Bool
  | [] => true
  | n :: ns => wfNode n && wfList ns

end

theorem attrsOkList_append (xs ys : List Node) :
    attrsOkList (xs ++ ys) = (attrsOkList xs && attrsOkList ys) := by
  induction xs with
  | nil => simp [attrsOkList]
  | cons n ns ih => simp [attrsOkList, ih, Bool.and_assoc]

theorem stripAttrs_ok (a : List (Str × Str)) (h : nodupAttrNames a = true) :
    (stripAttrs a).all attrOk = true := by
  rw [List.all_eq_true]
  intro p hp
  set a1 := a.filter (fun p => decide (¬ p.1 ∈ strippedAttrNames)) with ha1
  have hsubname : List.Sublist (a1.map (fun p => p.1)) (a.map (fun p => p.1)) :=
    (List.filter_sublist a).map _
  have hnodup : (a1.map (fun p => p.1)).Nodup :=
    List.Nodup.sublist hsubname (by simpa [nodupAttrNames] using h)
  unfold stripAttrs at hp
  rw [← ha1] at hp
  rw [List.mem_filter] at hp
  obtain ⟨hp2, hval⟩ := hp
  have hmem1 : p ∈ a1 := by
    by_cases hc : getAttr a1 "role".data = some "presentation".data
    · rw [if_pos hc] at hp2; exact (List.mem_filter.mp hp2).1
    · rwa [if_neg hc] at hp2
  have hname : ¬ p.1 ∈ strippedAttrNames := by
    have := (List.mem_filter.mp (ha1 ▸ hmem1)).2
    simpa using this
  have hrole : ¬ (p.1 = "role".data ∧ p.2 = "presentation".data) := by
    rintro ⟨h1, h2⟩
    by_cases hc : getAttr a1 "role".data = some "presentation".data
    · rw [if_pos hc] at hp2
      have := (List.mem_filter.mp hp2).2
      simp [h1] at this
    · cases hfind : a1.find? (fun q => decide (q.1 = "role".data)) with
      | none =>
        have hnone := List.find?_eq_none.mp hfind p hmem1
        simp [h1] at hnone
      | some q =>
        have hq1 : q.1 = "role".data := by
          have := List.find?_some hfind
          simpa using this
        have hqmem : q ∈ a1 := List.mem_of_find?_eq_some hfind
        have hpq : p = q :=
          List.inj_on_of_nodup_map hnodup hmem1 hqmem (by rw [h1, hq1])
        apply hc
        rw [getAttr, hfind]
        simp [← hpq, h2]
  rw [attrOk, decide_eq_true_eq]
  exact ⟨hname, hrole, by simpa using hval⟩

theorem checkForHeadingMarker_ok (t : Str) (c : List Node) (n : Node)
    (h : checkForHeadingMarker t c = some n) : attrsOkNode n = true := by
  simp only [checkForHeadingMarker] at h
  split at h
  · split at h
    · cases h
    · cases h
      split <;> simp [attrsOkNode, attrsOkList]
  · cases h

theorem processElement_attrsOk (t : Str) (a : List (Str × Str)) (c1 : List Node)
    (ha : nodupAttrNames a = true) (hc : attrsOkList c1 = true) :
    attrsOkList (processElement t a c1) = true := by
  cases hm : checkForHeadingMarker t c1 with
  | some n =>
    unfold processElement
    rw [hm]
    simp [attrsOkList, checkForHeadingMarker_ok t c1 n hm]
  | none =>
    unfold processElement
    rw [hm]
    dsimp only
    repeat' split
    all_goals simp [attrsOkList, attrsOkNode, hc, stripAttrs_ok a ha]

mutual

theorem processNodeList_attrsOk (ns : List Node) (h : wfList ns = true) :
    attrsOkList (processNodeList ns) = true := by
  match ns with
  | [] => simp [processNodeList, attrsOkList]
  | n :: ns =>
    rw [wfList, Bool.and_eq_true] at h
    rw [processNodeList, attrsOkList_append,
      processChild_attrsOk n h.1, processNodeList_attrsOk ns h.2]
    rfl

theorem processChild_attrsOk (n : Node) (h : wfNode n = true) :
    attrsOkList (processChild n) = true := by
  match n with
  | .comment s => simp [processChild, attrsOkList]
  | .text s => simp [processChild, attrsOkList, attrsOkNode]
  | .elem t a c =>
    rw [wfNode, Bool.and_eq_true] at h
    exact processElement_attrsOk t a _ h.1 (processNodeList_attrsOk c h.2)

end

mutual

theorem unwrapPs_attrsOk (ns : List Node) (h : attrsOkList ns = true) :
    attrsOkList (unwrapPs ns) = true := by
  match ns with
  | [] => simpa [unwrapPs] using h
  | n :: rest =>
    rw [attrsOkList, Bool.and_eq_true] at h
    rw [unwrapPs, attrsOkList_append, unwrapPsNode_attrsOk n h.1,
      unwrapPs_attrsOk rest h.2]
    rfl

theorem unwrapPsNode_attrsOk (n : Node) (h : attrsOkNode n = true) :
    attrsOkList (unwrapPsNode n) = true := by
  match n with
  | .text s => simpa [unwrapPsNode, attrsOkList] using h
  | .comment s => simpa [unwrapPsNode, attrsOkList] using h
  | .elem t a c =>
    rw [attrsOkNode, Bool.and_eq_true] at h
    rw [unwrapPsNode]
    split
    · exact unwrapPs_attrsOk c h.2
    · simp [attrsOkList, attrsOkNode, h.1, unwrapPs_attrsOk c h.2]

end

theorem boldScan_attrsOk (l kept acc : List Node) (hl : attrsOkList l = true)
    (hk : attrsOkList kept = true) (ha : attrsOkList acc = true) :
    attrsOkList (boldScan kept acc l) = true := by
  induction l generalizing kept acc with
  | nil => simp [boldScan, attrsOkList_append, hk, ha]
  | cons n rest ih =>
    rw [attrsOkList, Bool.and_eq_true] at hl
    match n with
    | .text s =>
      cases hfind : s.findIdx? (fun c => decide (c = ':')) with
      | some i =>
        simp only [boldScan, hfind]
        split <;>
          simp [attrsOkList_append, attrsOkList, attrsOkNode, hk, ha, hl.2]
      | none =>
        simp only [boldScan, hfind]
        exact ih kept (acc ++ [.text s]) hl.2 hk
          (by simp [attrsOkList_append, ha, attrsOkList, attrsOkNode])
    | .elem t a c =>
      have he : (a.all attrOk && attrsOkList c) = true := hl.1
      rw [Bool.and_eq_true] at he
      simp only [boldScan]
      split
      · simp [attrsOkList_append, attrsOkList, attrsOkNode, hk, hl.2, he.1, he.2]
      · cases hfind : (textContentList c).findIdx? (fun c => decide (c = ':')) with
        | some i =>
          simp only [hfind]
          simp [attrsOkList_append, attrsOkList, attrsOkNode, hk, ha, hl.2,
            he.1, he.2]
        | none =>
          simp only [hfind]
          exact ih kept (acc ++ [.elem t a c]) hl.2 hk
            (by simp [attrsOkList_append, ha, attrsOkList, attrsOkNode, he.1, he.2])
    | .comment s =>
      simp only [boldScan]
      exact ih (kept ++ [.comment s]) acc hl.2
        (by simp [attrsOkList_append, hk, attrsOkList, attrsOkNode]) ha

theorem liColonRewrite_attrsOk (c1 : List Node) (h : attrsOkList c1 = true) :
    attrsOkList (liColonRewrite c1) = true := by
  cases hfind : (textContentList c1).findIdx? (fun ch => decide (ch = ':')) with
  | some i =>
    simp only [liColonRewrite, hfind]
    by_cases hi : 0 < i ∧ i < 80
    · rw [if_pos hi]
      exact boldScan_attrsOk c1 [] [] h rfl rfl
    · rw [if_neg hi]
      exact h
  | none =>
    simp only [liColonRewrite, hfind]
    exact h

theorem transformLi_attrsOk (c : List Node) (h : attrsOkList c = true) :
    attrsOkList (transformLi c) = true := by
  rw [transformLi]
  split
  · exact unwrapPs_attrsOk c h
  · exact liColonRewrite_attrsOk _ (unwrapPs_attrsOk c h)

mutual

theorem cleanLiList_attrsOk (f : Nat) (ns : List Node)
    (h : attrsOkList ns = true) : attrsOkList (cleanLiList f ns) = true := by
  match f, ns with
  | 0, ns => simpa [cleanLiList] using h
  | _ + 1, [] => simpa [cleanLiList] using h
  | f + 1, n :: ns =>
    rw [attrsOkList, Bool.and_eq_true] at h
    rw [cleanLiList, attrsOkList, cleanLiNode_attrsOk f n h.1,
      cleanLiList_attrsOk f ns h.2]
    rfl

theorem cleanLiNode_attrsOk (f : Nat) (n : Node) (h : attrsOkNode n = true) :
    attrsOkNode (cleanLiNode f n) = true := by
  match f, n with
  | 0, n => simpa [cleanLiNode] using h
  | f + 1, .elem t a c =>
    rw [attrsOkNode, Bool.and_eq_true] at h
    rw [cleanLiNode]
    split
    · rw [attrsOkNode, Bool.and_eq_true]
      exact ⟨h.1, cleanLiList_attrsOk f _ (transformLi_attrsOk c h.2)⟩
    · rw [attrsOkNode, Bool.and_eq_true]
      exact ⟨h.1, cleanLiList_attrsOk f c h.2⟩
  | _ + 1, .text s => simpa [cleanLiNode] using h
  | _ + 1, .comment s => simpa [cleanLiNode] using h

end

theorem cleanListItems_attrsOk (ns : List Node) (h : attrsOkList ns = true) :
    attrsOkList (cleanListItems ns) = true :=
  cleanLiList_attrsOk _ ns h

mutual

theorem removeEmptyList_attrsOk (ns : List Node) (h : attrsOkList ns = true) :
    attrsOkList (removeEmptyList ns) = true := by
  match ns with
  | [] => simpa [removeEmptyList] using h
  | n :: rest =>
    rw [attrsOkList, Bool.and_eq_true] at h
    rw [removeEmptyList]
    cases he : removeEmptyNode n with
    | some m =>
      rw [attrsOkList, removeEmptyNode_attrsOk n m h.1 he,
        removeEmptyList_attrsOk rest h.2]
      rfl
    | none => exact removeEmptyList_attrsOk rest h.2

theorem removeEmptyNode_attrsOk (n m : Node) (h : attrsOkNode n = true)
    (e : removeEmptyNode n = some m) : attrsOkNode m = true := by
  match n with
  | .text s => cases e; simpa using h
  | .comment s => cases e; simpa using h
  | .elem t a c =>
    rw [attrsOkNode, Bool.and_eq_true] at h
    rw [removeEmptyNode] at e
    split at e
    · cases e
    · split at e
      · cases e
      · cases e
        rw [attrsOkNode, Bool.and_eq_true]
        exact ⟨h.1, removeEmptyList_attrsOk c h.2⟩

end

theorem jsTrim_cons_nonws (c : Char) (l : Str) (h : isJsWs c = false) :
    jsTrim (c :: l) ≠ [] := by
  intro he
  rw [jsTrim, List.dropWhile_cons, h] at he
  simp only [Bool.false_eq_true, if_false] at he
  have := List.rdropWhile_eq_nil_iff.mp he c (by simp)
  rw [h] at this
  cases this

theorem mkAnchor_attrsOk (href txt : Str) (h : jsTrim href ≠ []) :
    attrsOkNode (mkAnchor href txt) = true := by
  have h1 : ¬ ("href".data : Str) ∈ strippedAttrNames := by decide
  have h2 : ("href".data : Str) ≠ "role".data := by decide
  simp [mkAnchor, attrsOkNode, attrsOkList, attrOk, h, h1, h2]

theorem linkScan_attrsOk : ∀ (fuel : Nat) (pending s : Str) (frags : List Node),
    linkScan fuel pending s = some frags → attrsOkList frags = true
  | _, pending, [], frags, h => by rw [linkScan] at h; cases h
  | 0, pending, c :: cs, frags, h => by rw [linkScan] at h; cases h
  | f + 1, pending, c :: cs, frags, h => by
    rw [linkScan] at h
    cases hm : combinedMatchAt (c :: cs) with
    | none =>
      simp only [hm] at h
      exact linkScan_attrsOk f (pending ++ [c]) cs frags h
    | some r =>
      obtain ⟨isPhone, m, rest⟩ := r
      simp only [hm, Option.some.injEq] at h
      subst h
      have hanchor : attrsOkNode (mkAnchor
          (if isPhone = true then "tel:".data ++ telDigits m
           else "mailto:".data ++ m) m) = true := by
        apply mkAnchor_attrsOk
        split
        · exact jsTrim_cons_nonws 't' _ (by decide)
        · exact jsTrim_cons_nonws 'm' _ (by decide)
      rw [attrsOkList_append, Bool.and_eq_true]
      refine ⟨?_, ?_⟩
      · split <;> simp [attrsOkList, attrsOkNode]
      · rw [attrsOkList, hanchor]
        cases hrec : linkScan f [] rest with
        | some frags2 =>
          simp only [hrec]
          simp [linkScan_attrsOk f [] rest frags2 hrec]
        | none =>
          simp only [hrec]
          split <;> simp [attrsOkList, attrsOkNode]

theorem linkTextFrags_attrsOk (s : Str) :
    attrsOkList (linkTextFrags s) = true := by
  rw [linkTextFrags]
  cases hs : linkScan s.length [] s with
  | some frags => exact linkScan_attrsOk _ _ _ _ hs
  | none => simp [attrsOkList, attrsOkNode]

mutual

theorem autoLinkList_attrsOk (b : Bool) (ns : List Node)
    (h : attrsOkList ns = true) : attrsOkList (autoLinkList b ns) = true := by
  match ns with
  | [] => simpa [autoLinkList] using h
  | n :: rest =>
    rw [attrsOkList, Bool.and_eq_true] at h
    rw [autoLinkList, attrsOkList_append, autoLinkNode_attrsOk b n h.1,
      autoLinkList_attrsOk b rest h.2]
    rfl

theorem autoLinkNode_attrsOk (b : Bool) (n : Node) (h : attrsOkNode n = true) :
    attrsOkList (autoLinkNode b n) = true := by
  match n with
  | .text s =>
    rw [autoLinkNode]
    split
    · simpa [attrsOkList] using h
    · exact linkTextFrags_attrsOk s
  | .comment s => simpa [autoLinkNode, attrsOkList] using h
  | .elem t a c =>
    rw [attrsOkNode, Bool.and_eq_true] at h
    rw [autoLinkNode, attrsOkList, attrsOkNode]
    simp [h.1, autoLinkList_attrsOk (b || t == "A".data) c h.2, attrsOkList]

end

/-- Claim C5: for every well-formed input tree (attribute names unique per
element, as the DOM guarantees), every element in the output of the
normalization pipeline carries no attribute named class, style, dir, or
aria-level, no role attribute whose value is exactly presentation, and no
attribute whose value trims to the empty string; this covers the elements
created by later stages (headings, strong/em, hyperlinks), whose attribute
lists are empty or a single non-empty href. -/
theorem claim5_attribute_invariant (ns : List Node) (h : wfList ns = true) :
    attrsOkList (cleanTree ns) = true := by
  rw [cleanTree]
  exact autoLinkList_attrsOk false _ (removeEmptyList_attrsOk _
    (cleanListItems_attrsOk _ (processNodeList_attrsOk ns h)))

/-- Witness for claim C5 at a concrete input. -/
theorem claim5_attribute_invariant_witness :
    attrsOkList (cleanTree
      [Node.elem "P".data
        [("class".data, "x".data), ("role".data, "presentation".data)]
        [.text "hi".data]]) = true :=
  claim5_attribute_invariant _ (by decide)


theorem serializeList_append (xs ys : List Node) :
    serializeList (xs ++ ys) = serializeList xs ++ serializeList ys := by
  induction xs with
  | nil => simp [serializeList]
  | cons n ns ih => simp [serializeList, ih]

theorem serializeNode_elem_head (t : Str) (a : List (Str × Str)) (c : List Node) :
    ∃ l, serializeNode (.elem t a c) = '<' :: l := by
  rw [serializeNode]
  split
  · exact ⟨_, rfl⟩
  · exact ⟨_, rfl⟩

theorem jsTrim_eq_nil_iff (l : Str) :
    jsTrim l = [] ↔ ∀ c ∈ l, isJsWs c = true := by
  rw [jsTrim]
  constructor
  · intro h c hc
    have hd := List.rdropWhile_eq_nil_iff.mp h
    have hc2 : c ∈ l.takeWhile isJsWs ++ l.dropWhile isJsWs := by
      rw [List.takeWhile_append_dropWhile]
      exact hc
    rcases List.mem_append.mp hc2 with h1 | h2
    · exact List.mem_takeWhile_imp h1
    · exact hd c h2
  · intro h
    rw [List.rdropWhile_eq_nil_iff]
    intro x hx
    exact h x ((List.dropWhile_suffix isJsWs).subset hx)

theorem linkScan_has_elem : ∀ (fuel : Nat) (pending s : Str) (frags : List Node),
    linkScan fuel pending s = some frags → '<' ∈ serializeList frags
  | _, pending, [], frags, h => by rw [linkScan] at h; cases h
  | 0, pending, c :: cs, frags, h => by rw [linkScan] at h; cases h
  | f + 1, pending, c :: cs, frags, h => by
    rw [linkScan] at h
    cases hm : combinedMatchAt (c :: cs) with
    | none =>
      simp only [hm] at h
      exact linkScan_has_elem f (pending ++ [c]) cs frags h
    | some r =>
      obtain ⟨isPhone, m, rest⟩ := r
      simp only [hm, Option.some.injEq] at h
      subst h
      rw [serializeList_append, List.mem_append]
      right
      rw [serializeList, List.mem_append]
      left
      obtain ⟨l, hl⟩ := serializeNode_elem_head "A".data
        [("href".data, if isPhone = true then "tel:".data ++ telDigits m
          else "mailto:".data ++ m)] [.text m]
      rw [mkAnchor, hl]
      exact List.mem_cons_self _ _

mutual

theorem autoLinkList_allws (b : Bool) (ns : List Node)
    (h : ∀ c ∈ serializeList (autoLinkList b ns), isJsWs c = true) :
    ∀ c ∈ serializeList ns, isJsWs c = true := by
  match ns with
  | [] => simpa [autoLinkList] using h
  | n :: rest =>
    rw [autoLinkList, serializeList_append] at h
    rw [serializeList]
    intro c hc
    rcases List.mem_append.mp hc with h1 | h2
    · exact autoLinkNode_allws b n
        (fun d hd => h d (List.mem_append.mpr (Or.inl hd))) c h1
    · exact autoLinkList_allws b rest
        (fun d hd => h d (List.mem_append.mpr (Or.inr hd))) c h2

theorem autoLinkNode_allws (b : Bool) (n : Node)
    (h : ∀ c ∈ serializeList (autoLinkNode b n), isJsWs c = true) :
    ∀ c ∈ serializeNode n, isJsWs c = true := by
  match n with
  | .comment s =>
    intro c hc
    exact h c (by simpa [autoLinkNode, serializeList] using hc)
  | .elem t a ch =>
    obtain ⟨l, hl⟩ := serializeNode_elem_head t a (autoLinkList (b || t == "A".data) ch)
    have : isJsWs '<' = true := by
      apply h
      rw [autoLinkNode, serializeList, serializeList, List.append_nil, hl]
      exact List.mem_cons_self _ _
    cases this
  | .text s =>
    rw [autoLinkNode] at h
    intro c hc
    by_cases hb : b = true
    · rw [if_pos hb] at h
      exact h c (by simpa [serializeList] using hc)
    · rw [if_neg hb] at h
      rw [linkTextFrags] at h
      cases hs : linkScan s.length [] s with
      | none =>
        rw [hs] at h
        exact h c (by simpa [serializeList] using hc)
      | some frags =>
        rw [hs] at h
        have := h '<' (linkScan_has_elem _ _ _ frags hs)
        cases this

end

theorem autoLink_keeps_nonempty (b : Bool) (ns : List Node)
    (h : jsTrim (serializeList ns) ≠ []) :
    jsTrim (serializeList (autoLinkList b ns)) ≠ [] := by
  intro he
  exact h (by
    rw [jsTrim_eq_nil_iff]
    exact autoLinkList_allws b ns ((jsTrim_eq_nil_iff _).mp he))

theorem prunedOkList_append (xs ys : List Node) :
    prunedOkList (xs ++ ys) = (prunedOkList xs && prunedOkList ys) := by
  induction xs with
  | nil => simp [prunedOkList]
  | cons n ns ih => simp [prunedOkList, ih, Bool.and_assoc]

mutual

theorem removeEmptyList_prunedOk (ns : List Node) :
    prunedOkList (removeEmptyList ns) = true := by
  match ns with
  | [] => rfl
  | n :: rest =>
    rw [removeEmptyList]
    cases he : removeEmptyNode n with
    | some m =>
      rw [prunedOkList, removeEmptyNode_prunedOk n m he,
        removeEmptyList_prunedOk rest]
      rfl
    | none => exact removeEmptyList_prunedOk rest

theorem removeEmptyNode_prunedOk (n m : Node) (e : removeEmptyNode n = some m) :
    prunedOkNode m = true := by
  match n with
  | .text s => cases e; rfl
  | .comment s => cases e; rfl
  | .elem t a c =>
    rw [removeEmptyNode] at e
    split at e
    · cases e
    · rename_i hgen
      split at e
      · cases e
      · rename_i hp
        cases e
        rw [prunedOkNode, Bool.and_eq_true]
        refine ⟨?_, removeEmptyList_prunedOk c⟩
        rw [Bool.or_eq_true, Bool.or_eq_true]
        by_cases h1 : selfClosingTags.contains t = true
        · exact Or.inl (Or.inl h1)
        · by_cases h2 : jsTrim (serializeList (removeEmptyList c)) = []
          · by_cases h3 : hasUsefulAttributes a = true
            · exact Or.inr h3
            · exact absurd ⟨by simpa using h1, h2, by simpa using h3⟩ hp
          · exact Or.inl (Or.inr (by simpa using h2))

end

theorem linkScan_prunedOk : ∀ (fuel : Nat) (pending s : Str) (frags : List Node),
    linkScan fuel pending s = some frags → prunedOkList frags = true
  | _, pending, [], frags, h => by rw [linkScan] at h; cases h
  | 0, pending, c :: cs, frags, h => by rw [linkScan] at h; cases h
  | f + 1, pending, c :: cs, frags, h => by
    rw [linkScan] at h
    cases hm : combinedMatchAt (c :: cs) with
    | none =>
      simp only [hm] at h
      exact linkScan_prunedOk f (pending ++ [c]) cs frags h
    | some r =>
      obtain ⟨isPhone, m, rest⟩ := r
      simp only [hm, Option.some.injEq] at h
      subst h
      have hanchor : prunedOkNode (mkAnchor
          (if isPhone = true then "tel:".data ++ telDigits m
           else "mailto:".data ++ m) m) = true := by
        rw [mkAnchor, prunedOkNode, Bool.and_eq_true]
        refine ⟨?_, rfl⟩
        rw [Bool.or_eq_true]
        exact Or.inr rfl
      rw [prunedOkList_append, Bool.and_eq_true]
      refine ⟨by split <;> rfl, ?_⟩
      rw [prunedOkList, hanchor]
      cases hrec : linkScan f [] rest with
      | some frags2 =>
        simp only [hrec]
        simp [linkScan_prunedOk f [] rest frags2 hrec]
      | none =>
        simp only [hrec]
        split <;> rfl

theorem linkTextFrags_prunedOk (s : Str) :
    prunedOkList (linkTextFrags s) = true := by
  rw [linkTextFrags]
  cases hs : linkScan s.length [] s with
  | some frags => exact linkScan_prunedOk _ _ _ _ hs
  | none => rfl

mutual

theorem autoLinkList_prunedOk (b : Bool) (ns : List Node)
    (h : prunedOkList ns = true) : prunedOkList (autoLinkList b ns) = true := by
  match ns with
  | [] => rfl
  | n :: rest =>
    rw [prunedOkList, Bool.and_eq_true] at h
    rw [autoLinkList, prunedOkList_append, autoLinkNode_prunedOk b n h.1,
      autoLinkList_prunedOk b rest h.2]
    rfl

theorem autoLinkNode_prunedOk (b : Bool) (n : Node) (h : prunedOkNode n = true) :
    prunedOkList (autoLinkNode b n) = true := by
  match n with
  | .text s =>
    rw [autoLinkNode]
    split
    · rfl
    · exact linkTextFrags_prunedOk s
  | .comment s => rfl
  | .elem t a c =>
    rw [prunedOkNode, Bool.and_eq_true] at h
    have hnode : prunedOkNode
        (.elem t a (autoLinkList (b || t == "A".data) c)) = true := by
      rw [prunedOkNode, Bool.and_eq_true]
      refine ⟨?_, autoLinkList_prunedOk _ c h.2⟩
      have h1 := h.1
      rw [Bool.or_eq_true, Bool.or_eq_true] at h1 ⊢
      rcases h1 with (hsc | hne) | hu
      · exact Or.inl (Or.inl hsc)
      · refine Or.inl (Or.inr ?_)
        have := autoLink_keeps_nonempty (b || t == "A".data) c (by simpa using hne)
        simpa using this
      · exact Or.inr hu
    simp [autoLinkNode, prunedOkList, hnode]

end

/-- Claim C4 amended: after the pipeline completes, every element whose tag is
not in the void/self-closing set has non-empty trimmed serialized inner
content or satisfies hasUsefulAttributes (some attribute name starts with one
of href, src, alt, title, id, name, data-, aria-, role).  The Empty Element
Pruner establishes this and the Auto-Linker preserves it: linking never
empties a serialization, and the anchors it creates carry the useful href. -/
theorem claim4_amended_empty_prune_invariant (ns : List Node) :
    prunedOkList (cleanTree ns) = true := by
  rw [cleanTree]
  exact autoLinkList_prunedOk false _ (removeEmptyList_prunedOk _)



/-- Characters that can occur in a PHONE_REGEX match: digits, the plus sign of
the international form, the whitespace of \s, and parenthesis or dash
separators. -/
def phoneCharOk (c : Char) : Bool :=
  c.isDigit || c = '+' || isJsWs c || c = '(' || c = ')' || c = '-'

theorem matchChar_chars (p : Char → Bool) (s m r : Str)
    (h : matchChar p s = some (m, r)) : ∀ c ∈ m, p c = true := by
  match s with
  | [] => cases h
  | d :: ds =>
    rw [matchChar] at h
    split at h
    · cases h
      intro c hc
      rw [List.mem_singleton] at hc
      subst hc
      assumption
    · cases h

theorem matchOpt_chars (p : Char → Bool) (s m r : Str)
    (h : matchOpt p s = (m, r)) : ∀ c ∈ m, p c = true := by
  match s with
  | [] => cases h; intro c hc; cases hc
  | d :: ds =>
    rw [matchOpt] at h
    split at h
    · cases h
      intro c hc
      rw [List.mem_singleton] at hc
      subst hc
      assumption
    · cases h
      intro c hc
      cases hc

theorem matchExact_chars : ∀ (n : Nat) (p : Char → Bool) (s m r : Str),
    matchExact n p s = some (m, r) → ∀ c ∈ m, p c = true
  | 0, p, s, m, r, h => by
    rw [matchExact] at h
    cases h
    intro c hc
    cases hc
  | k + 1, p, [], m, r, h => by cases h
  | k + 1, p, d :: ds, m, r, h => by
    rw [matchExact] at h
    split at h
    · cases hrec : matchExact k p ds with
      | none => rw [hrec] at h; cases h
      | some q =>
        rw [hrec] at h
        cases h
        intro c hc
        rcases List.mem_cons.mp hc with h1 | h2
        · subst h1; assumption
        · exact matchExact_chars k p ds q.1 q.2 (by rw [hrec]) c h2
    · cases h

theorem matchLit_matched : ∀ (lit s m r : Str),
    matchLit lit s = some (m, r) → m = lit
  | [], s, m, r, h => by rw [matchLit] at h; cases h; rfl
  | c :: cs, [], m, r, h => by cases h
  | c :: cs, d :: ds, m, r, h => by
    rw [matchLit] at h
    split at h
    · cases hrec : matchLit cs ds with
      | none => rw [hrec] at h; cases h
      | some q =>
        rw [hrec] at h
        cases h
        rename_i hd
        rw [hd, matchLit_matched cs ds q.1 q.2 (by rw [hrec])]
    · cases h

theorem chars_append {P : Char → Bool} {xs ys : Str}
    (hx : ∀ c ∈ xs, P c = true) (hy : ∀ c ∈ ys, P c = true) :
    ∀ c ∈ xs ++ ys, P c = true := by
  intro c hc
  rcases List.mem_append.mp hc with h | h
  · exact hx c h
  · exact hy c h

theorem phoneAlt1_chars (s m r : Str) (h : phoneAlt1 s = some (m, r)) :
    ∀ c ∈ m, phoneCharOk c = true := by
  rw [phoneAlt1] at h
  rw [Option.bind_eq_some] at h
  obtain ⟨r1, h1, h⟩ := h
  rw [Option.bind_eq_some] at h
  obtain ⟨r3, h3, h⟩ := h
  rw [Option.bind_eq_some] at h
  obtain ⟨r5, h5, h⟩ := h
  rw [Option.map_eq_some'] at h
  obtain ⟨r7, h7, h⟩ := h
  cases h
  have c1 : ∀ c ∈ r1.1, phoneCharOk c = true := by
    rw [matchLit_matched _ _ _ _ h1]
    decide
  have c2 : ∀ c ∈ (matchOpt isJsWs r1.2).1, phoneCharOk c = true := by
    intro c hc
    have := matchOpt_chars isJsWs r1.2 _ _ rfl c hc
    simp [phoneCharOk, this]
  have c3 : ∀ c ∈ r3.1, phoneCharOk c = true := by
    intro c hc
    have := matchChar_chars Char.isDigit _ _ _ h3 c hc
    simp [phoneCharOk, this]
  have c4 : ∀ c ∈ (matchOpt isPhoneSep r3.2).1, phoneCharOk c = true := by
    intro c hc
    have := matchOpt_chars isPhoneSep r3.2 _ _ rfl c hc
    rw [isPhoneSep, Bool.or_eq_true] at this
    rcases this with h | h
    · simp [phoneCharOk, h]
    · simp [phoneCharOk, h]
  have c5 : ∀ c ∈ r5.1, phoneCharOk c = true := by
    intro c hc
    have := matchExact_chars 4 Char.isDigit _ _ _ h5 c hc
    simp [phoneCharOk, this]
  have c6 : ∀ c ∈ (matchOpt isPhoneSep r5.2).1, phoneCharOk c = true := by
    intro c hc
    have := matchOpt_chars isPhoneSep r5.2 _ _ rfl c hc
    rw [isPhoneSep, Bool.or_eq_true] at this
    rcases this with h | h
    · simp [phoneCharOk, h]
    · simp [phoneCharOk, h]
  have c7 : ∀ c ∈ r7.1, phoneCharOk c = true := by
    intro c hc
    have := matchExact_chars 4 Char.isDigit _ _ _ h7 c hc
    simp [phoneCharOk, this]
  exact chars_append (chars_append (chars_append (chars_append (chars_append
    (chars_append c1 c2) c3) c4) c5) c6) c7

theorem phoneAlt2_chars (s m r : Str) (h : phoneAlt2 s = some (m, r)) :
    ∀ c ∈ m, phoneCharOk c = true := by
  rw [phoneAlt2] at h
  rw [Option.bind_eq_some] at h
  obtain ⟨r1, h1, h⟩ := h
  rw [Option.bind_eq_some] at h
  obtain ⟨r2, h2, h⟩ := h
  rw [Option.bind_eq_some] at h
  obtain ⟨r3, h3, h⟩ := h
  rw [Option.bind_eq_some] at h
  obtain ⟨r5, h5, h⟩ := h
  rw [Option.map_eq_some'] at h
  obtain ⟨r7, h7, h⟩ := h
  cases h
  have c1 : ∀ c ∈ r1.1, phoneCharOk c = true := by
    rw [matchLit_matched _ _ _ _ h1]
    decide
  have c2 : ∀ c ∈ r2.1, phoneCharOk c = true := by
    intro c hc
    have := matchChar_chars Char.isDigit _ _ _ h2 c hc
    simp [phoneCharOk, this]
  have c3 : ∀ c ∈ r3.1, phoneCharOk c = true := by
    rw [matchLit_matched _ _ _ _ h3]
    decide
  have c4 : ∀ c ∈ (matchOpt isJsWs r3.2).1, phoneCharOk c = true := by
    intro c hc
    have := matchOpt_chars isJsWs r3.2 _ _ rfl c hc
    simp [phoneCharOk, this]
  have c5 : ∀ c ∈ r5.1, phoneCharOk c = true := by
    intro c hc
    have := matchExact_chars 4 Char.isDigit _ _ _ h5 c hc
    simp [phoneCharOk, this]
  have c6 : ∀ c ∈ (matchOpt isPhoneSep r5.2).1, phoneCharOk c = true := by
    intro c hc
    have := matchOpt_chars isPhoneSep r5.2 _ _ rfl c hc
    rw [isPhoneSep, Bool.or_eq_true] at this
    rcases this with h | h
    · simp [phoneCharOk, h]
    · simp [phoneCharOk, h]
  have c7 : ∀ c ∈ r7.1, phoneCharOk c = true := by
    intro c hc
    have := matchExact_chars 4 Char.isDigit _ _ _ h7 c hc
    simp [phoneCharOk, this]
  exact chars_append (chars_append (chars_append (chars_append (chars_append
    (chars_append c1 c2) c3) c4) c5) c6) c7

theorem phoneAlt3_chars (s m r : Str) (h : phoneAlt3 s = some (m, r)) :
    ∀ c ∈ m, phoneCharOk c = true := by
  rw [phoneAlt3] at h
  rw [Option.bind_eq_some] at h
  obtain ⟨r1, h1, h⟩ := h
  rw [Option.bind_eq_some] at h
  obtain ⟨r2, h2, h⟩ := h
  rw [Option.bind_eq_some] at h
  obtain ⟨r4, h4, h⟩ := h
  rw [Option.map_eq_some'] at h
  obtain ⟨r6, h6, h⟩ := h
  cases h
  have c1 : ∀ c ∈ r1.1, phoneCharOk c = true := by
    intro c hc
    have := matchChar_chars _ _ _ _ h1 c hc
    rw [decide_eq_true_eq] at this
    subst this
    decide
  have c2 : ∀ c ∈ r2.1, phoneCharOk c = true := by
    intro c hc
    have := matchChar_chars _ _ _ _ h2 c hc
    rw [Bool.or_eq_true, Bool.or_eq_true, Bool.or_eq_true, Bool.or_eq_true] at this
    rcases this with ((((h | h) | h) | h) | h) <;>
      (rw [decide_eq_true_eq] at h; subst h; decide)
  have c3 : ∀ c ∈ (matchOpt isJsWs r2.2).1, phoneCharOk c = true := by
    intro c hc
    have := matchOpt_chars isJsWs r2.2 _ _ rfl c hc
    simp [phoneCharOk, this]
  have c4 : ∀ c ∈ r4.1, phoneCharOk c = true := by
    intro c hc
    have := matchExact_chars 4 Char.isDigit _ _ _ h4 c hc
    simp [phoneCharOk, this]
  have c5 : ∀ c ∈ (matchOpt isPhoneSep r4.2).1, phoneCharOk c = true := by
    intro c hc
    have := matchOpt_chars isPhoneSep r4.2 _ _ rfl c hc
    rw [isPhoneSep, Bool.or_eq_true] at this
    rcases this with h | h
    · simp [phoneCharOk, h]
    · simp [phoneCharOk, h]
  have c6 : ∀ c ∈ r6.1, phoneCharOk c = true := by
    intro c hc
    have := matchExact_chars 4 Char.isDigit _ _ _ h6 c hc
    simp [phoneCharOk, this]
  exact chars_append (chars_append (chars_append (chars_append
    (chars_append c1 c2) c3) c4) c5) c6

theorem phoneAlt4_chars (s m r : Str) (h : phoneAlt4 s = some (m, r)) :
    ∀ c ∈ m, phoneCharOk c = true := by
  rw [phoneAlt4] at h
  rw [Option.bind_eq_some] at h
  obtain ⟨r1, h1, h⟩ := h
  rw [Option.bind_eq_some] at h
  obtain ⟨r2, h2, h⟩ := h
  rw [Option.bind_eq_some] at h
  obtain ⟨r4, h4, h⟩ := h
  rw [Option.map_eq_some'] at h
  obtain ⟨r6, h6, h⟩ := h
  cases h
  have c1 : ∀ c ∈ r1.1, phoneCharOk c = true := by
    rw [matchLit_matched _ _ _ _ h1]
    decide
  have c2 : ∀ c ∈ r2.1, phoneCharOk c = true := by
    intro c hc
    have := matchExact_chars 2 Char.isDigit _ _ _ h2 c hc
    simp [phoneCharOk, this]
  have c3 : ∀ c ∈ (matchOpt isPhoneSep r2.2).1, phoneCharOk c = true := by
    intro c hc
    have := matchOpt_chars isPhoneSep r2.2 _ _ rfl c hc
    rw [isPhoneSep, Bool.or_eq_true] at this
    rcases this with h | h
    · simp [phoneCharOk, h]
    · simp [phoneCharOk, h]
  have c4 : ∀ c ∈ r4.1, phoneCharOk c = true := by
    intro c hc
    have := matchExact_chars 3 Char.isDigit _ _ _ h4 c hc
    simp [phoneCharOk, this]
  have c5 : ∀ c ∈ (matchOpt isPhoneSep r4.2).1, phoneCharOk c = true := by
    intro c hc
    have := matchOpt_chars isPhoneSep r4.2 _ _ rfl c hc
    rw [isPhoneSep, Bool.or_eq_true] at this
    rcases this with h | h
    · simp [phoneCharOk, h]
    · simp [phoneCharOk, h]
  have c6 : ∀ c ∈ r6.1, phoneCharOk c = true := by
    intro c hc
    have := matchExact_chars 3 Char.isDigit _ _ _ h6 c hc
    simp [phoneCharOk, this]
  exact chars_append (chars_append (chars_append (chars_append
    (chars_append c1 c2) c3) c4) c5) c6

theorem phoneAlt5_chars (s m r : Str) (h : phoneAlt5 s = some (m, r)) :
    ∀ c ∈ m, phoneCharOk c = true := by
  rw [phoneAlt5] at h
  rw [Option.bind_eq_some] at h
  obtain ⟨r1, h1, h⟩ := h
  rw [Option.bind_eq_some] at h
  obtain ⟨r2, h2, h⟩ := h
  rw [Option.bind_eq_some] at h
  obtain ⟨r3, h3, h⟩ := h
  rw [Option.bind_eq_some] at h
  obtain ⟨r5, h5, h⟩ := h
  rw [Option.map_eq_some'] at h
  obtain ⟨r7, h7, h⟩ := h
  cases h
  have c1 : ∀ c ∈ r1.1, phoneCharOk c = true := by
    intro c hc
    have := matchChar_chars _ _ _ _ h1 c hc
    rw [decide_eq_true_eq] at this
    subst this
    decide
  have c2 : ∀ c ∈ r2.1, phoneCharOk c = true := by
    intro c hc
    have := matchChar_chars _ _ _ _ h2 c hc
    rw [Bool.or_eq_true] at this
    rcases this with h | h <;> (rw [decide_eq_true_eq] at h; subst h; decide)
  have c3 : ∀ c ∈ r3.1, phoneCharOk c = true := by
    rw [matchLit_matched _ _ _ _ h3]
    decide
  have c4 : ∀ c ∈ (matchOpt isPhoneSep r3.2).1, phoneCharOk c = true := by
    intro c hc
    have := matchOpt_chars isPhoneSep r3.2 _ _ rfl c hc
    rw [isPhoneSep, Bool.or_eq_true] at this
    rcases this with h | h
    · simp [phoneCharOk, h]
    · simp [phoneCharOk, h]
  have c5 : ∀ c ∈ r5.1, phoneCharOk c = true := by
    intro c hc
    have := matchExact_chars 3 Char.isDigit _ _ _ h5 c hc
    simp [phoneCharOk, this]
  have c6 : ∀ c ∈ (matchOpt isPhoneSep r5.2).1, phoneCharOk c = true := by
    intro c hc
    have := matchOpt_chars isPhoneSep r5.2 _ _ rfl c hc
    rw [isPhoneSep, Bool.or_eq_true] at this
    rcases this with h | h
    · simp [phoneCharOk, h]
    · simp [phoneCharOk, h]
  have c7 : ∀ c ∈ r7.1, phoneCharOk c = true := by
    intro c hc
    have := matchExact_chars 3 Char.isDigit _ _ _ h7 c hc
    simp [phoneCharOk, this]
  exact chars_append (chars_append (chars_append (chars_append (chars_append
    (chars_append c1 c2) c3) c4) c5) c6) c7

theorem phoneMatchAt_chars (s m r : Str) (h : phoneMatchAt s = some (m, r)) :
    ∀ c ∈ m, phoneCharOk c = true := by
  rw [phoneMatchAt] at h
  cases h1 : phoneAlt1 s with
  | some q => rw [h1] at h; cases h; exact phoneAlt1_chars s _ _ h1
  | none =>
    rw [h1] at h
    cases h2 : phoneAlt2 s with
    | some q => rw [h2] at h; cases h; exact phoneAlt2_chars s _ _ h2
    | none =>
      rw [h2] at h
      cases h3 : phoneAlt3 s with
      | some q => rw [h3] at h; cases h; exact phoneAlt3_chars s _ _ h3
      | none =>
        rw [h3] at h
        cases h4 : phoneAlt4 s with
        | some q => rw [h4] at h; cases h; exact phoneAlt4_chars s _ _ h4
        | none =>
          rw [h4] at h
          exact phoneAlt5_chars s _ _ h

theorem telDigits_chars (m : Str) (hm : ∀ c ∈ m, phoneCharOk c = true) :
    (telDigits m).all (fun c => c.isDigit || c = '+') = true := by
  rw [List.all_eq_true]
  intro c hc
  rw [telDigits, List.mem_filter] at hc
  have h1 := hm c hc.1
  have h2 := hc.2
  rw [Bool.not_eq_true', stripTelChar] at h2
  rw [phoneCharOk] at h1
  simp only [Bool.or_eq_true] at h1
  simp only [Bool.or_eq_false_iff] at h2
  rcases h1 with ((((hd | hp) | hw) | ho) | hcl) | hdash
  · simp [hd]
  · simp [hp]
  · rw [h2.1.1.1] at hw; cases hw
  · rw [ho] at h2; simp at h2
  · rw [hcl] at h2; simp at h2
  · rw [hdash] at h2; simp at h2

theorem telDigitsOrPlus_tel (x : Str)
    (hx : x.all (fun c => c.isDigit || c = '+') = true) :
    telDigitsOrPlus ("tel:".data ++ x) = true := by
  rw [telDigitsOrPlus,
    if_pos (List.isPrefixOf_iff_prefix.mpr (List.prefix_append _ _)),
    List.drop_left' (by rfl : ("tel:".data : Str).length = 4)]
  exact hx

theorem telDigitsOrPlus_mailto (x : Str) :
    telDigitsOrPlus ("mailto:".data ++ x) = true := by
  rw [telDigitsOrPlus]
  rw [show ("tel:".data.isPrefixOf ("mailto:".data ++ x)) = false from rfl]
  rfl

theorem telOkList_append (p : Str → Bool) (xs ys : List Node) :
    telOkList p (xs ++ ys) = (telOkList p xs && telOkList p ys) := by
  induction xs with
  | nil => simp [telOkList]
  | cons n ns ih => simp [telOkList, ih, Bool.and_assoc]

theorem linkScan_telOk : ∀ (fuel : Nat) (pending s : Str) (frags : List Node),
    linkScan fuel pending s = some frags →
    telOkList telDigitsOrPlus frags = true
  | _, pending, [], frags, h => by rw [linkScan] at h; cases h
  | 0, pending, c :: cs, frags, h => by rw [linkScan] at h; cases h
  | f + 1, pending, c :: cs, frags, h => by
    rw [linkScan] at h
    cases hm : combinedMatchAt (c :: cs) with
    | none =>
      simp only [hm] at h
      exact linkScan_telOk f (pending ++ [c]) cs frags h
    | some r =>
      obtain ⟨isPhone, m, rest⟩ := r
      simp only [hm, Option.some.injEq] at h
      subst h
      have hanchor : telOkNode telDigitsOrPlus (mkAnchor
          (if isPhone = true then "tel:".data ++ telDigits m
           else "mailto:".data ++ m) m) = true := by
        rw [mkAnchor, telOkNode]
        rw [if_pos rfl]
        rw [show getAttr [("href".data,
            if isPhone = true then "tel:".data ++ telDigits m
            else "mailto:".data ++ m)] "href".data =
          some (if isPhone = true then "tel:".data ++ telDigits m
            else "mailto:".data ++ m) from rfl]
        cases isPhone with
        | true =>
          rw [if_pos rfl]
          have hphone : phoneMatchAt (c :: cs) = some (m, rest) := by
            rw [combinedMatchAt] at hm
            cases hp : phoneMatchAt (c :: cs) with
            | some q => rw [hp] at hm; cases hm; rfl
            | none =>
              rw [hp] at hm
              cases he : emailMatchAt (c :: cs) with
              | some q => rw [he] at hm; cases hm
              | none => rw [he] at hm; cases hm
          have hok := telDigitsOrPlus_tel (telDigits m)
            (telDigits_chars m (phoneMatchAt_chars _ _ _ hphone))
          simp [telOkList, telOkNode]
          simpa using hok
        | false =>
          rw [if_neg (by simp)]
          simp [telOkList, telOkNode]
          simpa using telDigitsOrPlus_mailto m
      rw [telOkList_append, Bool.and_eq_true]
      refine ⟨by split <;> rfl, ?_⟩
      rw [telOkList, hanchor]
      cases hrec : linkScan f [] rest with
      | some frags2 =>
        simp only [hrec]
        simp [linkScan_telOk f [] rest frags2 hrec]
      | none =>
        simp only [hrec]
        split <;> rfl

/-- Claim C8 amended: every hyperlink the Auto-Linker creates for one text
node whose target uses the tel scheme has, after the scheme, only decimal
digits and plus signs: the strip at line 291 removes whitespace, parentheses
and dashes from the matched text, and the only other character a PHONE_REGEX
match can contain is the leading plus of the international form. -/
theorem claim8_amended_tel_digits_or_plus (s : Str) :
    telOkList telDigitsOrPlus (linkTextFrags s) = true := by
  rw [linkTextFrags]
  cases hs : linkScan s.length [] s with
  | some frags => exact linkScan_telOk _ _ _ _ hs
  | none => rfl


/-- Claim C6: the heading-marker conversion.  First conjunct: for any
paragraph child list whose trimmed text content starts with one of the
literal markers H1: H2: H3: H4: (the earlier markers checked first; at most
one can match since the markers differ at their second character),
checkForHeadingMarker replaces the paragraph with a heading of the
corresponding level whose text is the remainder after the marker, trimmed.
The remaining conjuncts run the whole pipeline on the two spec examples:
the paragraph H2: Pricing becomes the h2 heading Pricing, and the lower-case
h2: paragraph is retained unchanged. -/
theorem claim6_heading_markers :
    (∀ (c1 : List Node) (lvl mk : Str),
      ((lvl, mk) = ("H1".data, "H1:".data) ∨ (lvl, mk) = ("H2".data, "H2:".data) ∨
       (lvl, mk) = ("H3".data, "H3:".data) ∨ (lvl, mk) = ("H4".data, "H4:".data)) →
      mk.isPrefixOf (jsTrim (textContentList c1)) = true →
      checkForHeadingMarker "P".data c1 =
        some (.elem lvl []
          (if jsTrim ((jsTrim (textContentList c1)).drop mk.length) = [] then []
           else [.text (jsTrim ((jsTrim (textContentList c1)).drop mk.length))]))) ∧
    cleanTree [.elem "P".data [] [.text "H2: Pricing".data]] =
      [.elem "H2".data [] [.text "Pricing".data]] ∧
    cleanTree [.elem "P".data [] [.text "h2: Pricing".data]] =
      [.elem "P".data [] [.text "h2: Pricing".data]] := by
  refine ⟨?_, by decide, by decide⟩
  intro c1 lvl mk hlm h
  rcases hlm with hlm | hlm | hlm | hlm <;>
    (cases hlm
     obtain ⟨t, ht⟩ := List.isPrefixOf_iff_prefix.mp h)
  · simp [checkForHeadingMarker, ← ht]
  · simp [checkForHeadingMarker, ← ht,
      show (("H1:".data : Str).isPrefixOf ("H2:".data ++ t)) = false from rfl]
  · simp [checkForHeadingMarker, ← ht,
      show (("H1:".data : Str).isPrefixOf ("H3:".data ++ t)) = false from rfl,
      show (("H2:".data : Str).isPrefixOf ("H3:".data ++ t)) = false from rfl]
  · simp [checkForHeadingMarker, ← ht,
      show (("H1:".data : Str).isPrefixOf ("H4:".data ++ t)) = false from rfl,
      show (("H2:".data : Str).isPrefixOf ("H4:".data ++ t)) = false from rfl,
      show (("H3:".data : Str).isPrefixOf ("H4:".data ++ t)) = false from rfl]

/-- Witness for claim C6: the universal conjunct applied at the spec's H2
example. -/
theorem claim6_heading_markers_witness :
    checkForHeadingMarker "P".data [Node.text "H2: Pricing".data] =
      some (.elem "H2".data []
        (if jsTrim ((jsTrim (textContentList [Node.text "H2: Pricing".data])).drop
            ("H2:".data : Str).length) = [] then []
         else [.text (jsTrim ((jsTrim (textContentList
            [Node.text "H2: Pricing".data])).drop ("H2:".data : Str).length))])) :=
  claim6_heading_markers.1 [Node.text "H2: Pricing".data] "H2".data "H2:".data
    (by decide) (by decide)


/-- Scanning predicate for the inter-tag whitespace pattern: after some
whitespace, does an opening angle bracket follow directly? -/
def awaitLt : Str → Bool
  | [] => false
  | c :: cs => if c = '<' then true else isJsWs c && awaitLt cs

/-- Head of a gap remainder: at least one whitespace character, then more
whitespace up to an opening angle bracket. -/
def startsGap : Str → Bool
  | [] => false
  | c :: cs => isJsWs c && awaitLt cs

/-- Occurrence test of the pattern of the replace at html-cleaner.ts line 375:
somewhere a closing angle bracket, one or more whitespace characters, and an
opening angle bracket. -/
def hasGap : Str → Bool
  | [] => false
  | c :: cs => (decide (c = '>') && startsGap cs) || hasGap cs

theorem stripNlAux_no_nl : ∀ (s : Str) (b : Bool), '\n' ∉ stripNlAux b s := by
  intro s
  induction s with
  | nil => intro b; cases b <;> simp [stripNlAux]
  | cons c cs ih =>
    intro b
    cases b with
    | true =>
      rw [stripNlAux]
      split
      · exact ih true
      · rename_i hws
        intro hmem
        rcases List.mem_cons.mp hmem with h | h
        · subst h
          exact hws (by decide)
        · exact ih false h
    | false =>
      rw [stripNlAux]
      split
      · exact ih true
      · rename_i hnl
        intro hmem
        rcases List.mem_cons.mp hmem with h | h
        · exact hnl h.symm
        · exact ih false h

theorem collapseAux_no_nl : ∀ (s : Str) (st : Option Str),
    '\n' ∉ st.getD [] → '\n' ∉ s → '\n' ∉ collapseAux st s := by
  intro s
  induction s with
  | nil =>
    intro st hb _
    cases st with
    | none => simp [collapseAux]
    | some buf =>
      rw [collapseAux]
      rw [List.mem_reverse]
      exact hb
  | cons c cs ih =>
    intro st hb hs
    have hc : c ≠ '\n' := by
      intro he
      apply hs
      rw [he]
      exact List.mem_cons_self _ _
    have hcs : '\n' ∉ cs := fun h => hs (List.mem_cons_of_mem c h)
    cases st with
    | none =>
      rw [collapseAux]
      split
      · intro hmem
        rcases List.mem_cons.mp hmem with h | h
        · exact absurd h.symm (by decide)
        · exact ih (some []) (by simp) hcs h
      · intro hmem
        rcases List.mem_cons.mp hmem with h | h
        · exact hc h.symm
        · exact ih none (by simp) hcs h
    | some buf =>
      rw [collapseAux]
      split
      · intro hmem
        rcases List.mem_cons.mp hmem with h | h
        · exact absurd h.symm (by decide)
        · exact ih none (by simp) hcs h
      · split
        · exact ih (some (c :: buf))
            (by
              intro hmem
              rcases List.mem_cons.mp hmem with h | h
              · exact hc h.symm
              · exact hb h) hcs
        · intro hmem
          rcases List.mem_append.mp hmem with h | h
          · exact hb (List.mem_reverse.mp h)
          · revert h
            split
            · intro hmem2
              rcases List.mem_cons.mp hmem2 with h | h
              · exact absurd h.symm (by decide)
              · exact ih (some []) (by simp) hcs h
            · intro hmem2
              rcases List.mem_cons.mp hmem2 with h | h
              · exact hc h.symm
              · exact ih none (by simp) hcs h

theorem jsTrim_subset {x : Char} {l : Str} (h : x ∈ jsTrim l) : x ∈ l := by
  rw [jsTrim] at h
  have h1 : x ∈ l.dropWhile isJsWs := (List.rdropWhile_prefix _ _).subset h
  exact (List.dropWhile_suffix isJsWs).subset h1

theorem stripNlAux_id : ∀ (s : Str), '\n' ∉ s → stripNlAux false s = s := by
  intro s
  induction s with
  | nil => intro _; rfl
  | cons c cs ih =>
    intro h
    rw [stripNlAux]
    rw [if_neg (show ¬ c = '\n' by
      intro he
      apply h
      rw [he]
      exact List.mem_cons_self _ _)]
    rw [ih (fun hm => h (List.mem_cons_of_mem c hm))]

theorem awaitLt_ws_append : ∀ (a y : Str), (∀ c ∈ a, isJsWs c = true) →
    awaitLt (a ++ y) = awaitLt y := by
  intro a
  induction a with
  | nil => intro y _; rfl
  | cons w rest ih =>
    intro y hws
    have hw : isJsWs w = true := hws w (List.mem_cons_self _ _)
    have hwlt : w ≠ '<' := by
      intro he
      rw [he] at hw
      cases hw
    rw [List.cons_append, awaitLt, if_neg hwlt, hw,
      ih y (fun c hc => hws c (List.mem_cons_of_mem w hc))]
    rfl

theorem awaitLt_ws_false (a : Str) (h : ∀ c ∈ a, isJsWs c = true) :
    awaitLt a = false := by
  have := awaitLt_ws_append a [] h
  rw [List.append_nil] at this
  rw [this]
  rfl

theorem hasGap_ws_append : ∀ (a y : Str), (∀ c ∈ a, isJsWs c = true) →
    hasGap (a ++ y) = hasGap y := by
  intro a
  induction a with
  | nil => intro y _; rfl
  | cons w rest ih =>
    intro y hws
    have hw : isJsWs w = true := hws w (List.mem_cons_self _ _)
    have hwgt : ¬ (w = '>') := by
      intro he
      rw [he] at hw
      cases hw
    rw [List.cons_append, hasGap,
      ih y (fun c hc => hws c (List.mem_cons_of_mem w hc))]
    simp [hwgt]

theorem hasGap_ws (a : Str) (h : ∀ c ∈ a, isJsWs c = true) :
    hasGap a = false := by
  have := hasGap_ws_append a [] h
  rw [List.append_nil] at this
  rw [this]
  rfl

theorem awaitLt_mono : ∀ (x y : Str), awaitLt x = true → awaitLt (x ++ y) = true := by
  intro x
  induction x with
  | nil => intro y h; cases h
  | cons c cs ih =>
    intro y h
    rw [awaitLt] at h
    rw [List.cons_append, awaitLt]
    split at h
    · rename_i hlt
      rw [if_pos hlt]
    · rename_i hlt
      rw [if_neg hlt]
      rw [Bool.and_eq_true] at h
      rw [h.1, ih y h.2]
      rfl

theorem startsGap_mono (x y : Str) (h : startsGap x = true) :
    startsGap (x ++ y) = true := by
  match x with
  | [] => cases h
  | c :: cs =>
    rw [startsGap, Bool.and_eq_true] at h
    rw [List.cons_append, startsGap, h.1, awaitLt_mono cs y h.2]
    rfl

theorem hasGap_prefix : ∀ (a b : Str), hasGap a = true → hasGap (a ++ b) = true := by
  intro a
  induction a with
  | nil => intro b h; cases h
  | cons c cs ih =>
    intro b h
    rw [hasGap] at h
    rw [List.cons_append, hasGap]
    rw [Bool.or_eq_true] at h
    rcases h with h | h
    · rw [Bool.and_eq_true] at h
      rw [h.1, startsGap_mono cs b h.2]
      rfl
    · rw [ih b h]
      simp

theorem hasGap_suffix : ∀ (a b : Str), hasGap b = true → hasGap (a ++ b) = true := by
  intro a
  induction a with
  | nil => intro b h; exact h
  | cons c cs ih =>
    intro b h
    rw [List.cons_append, hasGap, ih b h]
    simp

theorem jsTrim_hasGap (l : Str) (h : hasGap l = false) :
    hasGap (jsTrim l) = false := by
  have h1 : hasGap (l.dropWhile isJsWs) = false := by
    by_contra hc
    rw [Bool.not_eq_false] at hc
    have := hasGap_suffix (l.takeWhile isJsWs) (l.dropWhile isJsWs) hc
    rw [List.takeWhile_append_dropWhile] at this
    rw [this] at h
    cases h
  obtain ⟨t, ht⟩ := List.rdropWhile_prefix isJsWs (l.dropWhile isJsWs)
  by_contra hc
  rw [Bool.not_eq_false] at hc
  have := hasGap_prefix _ t hc
  rw [jsTrim] at this
  rw [ht] at this
  rw [this] at h1
  cases h1

theorem collapseAux_some_startsGap : ∀ (s buf : Str),
    (∀ c ∈ buf, isJsWs c = true) →
    startsGap (collapseAux (some buf) s) = false := by
  intro s
  induction s with
  | nil =>
    intro buf hbuf
    rw [collapseAux]
    match hb : buf.reverse with
    | [] => rfl
    | w :: rest =>
      rw [startsGap]
      have hrest : ∀ c ∈ rest, isJsWs c = true := by
        intro c hc
        exact hbuf c (List.mem_reverse.mp (hb ▸ List.mem_cons_of_mem w hc))
      rw [awaitLt_ws_false rest hrest]
      simp
  | cons c cs ih =>
    intro buf hbuf
    rw [collapseAux]
    split
    · rw [startsGap]
      simp [isJsWs]
    · split
      · rename_i hnl hws
        exact ih (c :: buf) (by
          intro d hd
          rcases List.mem_cons.mp hd with h | h
          · subst h; assumption
          · exact hbuf d h)
      · rename_i hnl hws
        match hb : buf.reverse with
        | [] =>
          rw [List.nil_append]
          rw [Bool.not_eq_true] at hws
          split
          · rw [startsGap]
            simp [isJsWs]
          · rw [startsGap, hws]
            rfl
        | w :: rest =>
          rw [List.cons_append, startsGap]
          have hw : isJsWs w = true :=
            hbuf w (List.mem_reverse.mp (hb ▸ List.mem_cons_self w rest))
          have hrest : ∀ d ∈ rest, isJsWs d = true := by
            intro d hd
            exact hbuf d (List.mem_reverse.mp (hb ▸ List.mem_cons_of_mem w hd))
          rw [awaitLt_ws_append rest _ hrest]
          have : awaitLt (if c = '>' then '>' :: collapseAux (some []) cs
              else c :: collapseAux none cs) = false := by
            rw [Bool.not_eq_true] at hws
            split
            · rw [awaitLt]
              simp [isJsWs]
            · rw [awaitLt, if_neg hnl, hws]
              rfl
          rw [this]
          simp

theorem collapseAux_noGap : ∀ (s : Str) (st : Option Str),
    (∀ c ∈ st.getD [], isJsWs c = true) →
    hasGap (collapseAux st s) = false := by
  intro s
  induction s with
  | nil =>
    intro st hb
    cases st with
    | none => rfl
    | some buf =>
      rw [collapseAux]
      exact hasGap_ws _ (by
        intro c hc
        exact hb c (List.mem_reverse.mp hc))
  | cons c cs ih =>
    intro st hb
    cases st with
    | none =>
      rw [collapseAux]
      split
      · rw [hasGap, collapseAux_some_startsGap cs [] (by simp),
          ih (some []) (by simp)]
        simp
      · rename_i hgt
        rw [hasGap, ih none (by simp)]
        simp [hgt]
    | some buf =>
      rw [collapseAux]
      split
      · rw [hasGap, ih none (by simp)]
        simp [show ¬ ('<' = '>') by decide]
      · split
        · rename_i hnl hws
          exact ih (some (c :: buf)) (by
            intro d hd
            rcases List.mem_cons.mp hd with h | h
            · subst h; assumption
            · exact hb d h)
        · rename_i hnl hws
          rw [hasGap_ws_append _ _ (by
            intro d hd
            exact hb d (List.mem_reverse.mp hd))]
          split
          · rw [hasGap, collapseAux_some_startsGap cs [] (by simp),
              ih (some []) (by simp)]
            simp
          · rename_i hgt
            rw [hasGap, ih none (by simp)]
            simp [hgt]

theorem collapseAux_id : ∀ (s : Str),
    (hasGap s = false → collapseAux none s = s) ∧
    (∀ buf : Str, (∀ c ∈ buf, isJsWs c = true) →
      startsGap (buf.reverse ++ s) = false → hasGap s = false →
      collapseAux (some buf) s = buf.reverse ++ s) := by
  intro s
  induction s with
  | nil =>
    refine ⟨fun _ => rfl, ?_⟩
    intro buf _ _ _
    rw [collapseAux, List.append_nil]
  | cons c cs ih =>
    have hgap_tail : hasGap (c :: cs) = false → hasGap cs = false := by
      intro h
      rw [hasGap, Bool.or_eq_false_iff] at h
      exact h.2
    have hgap_sg : hasGap ('>' :: cs) = false → startsGap cs = false := by
      intro h
      rw [hasGap, Bool.or_eq_false_iff] at h
      have := h.1
      rw [Bool.and_eq_false_iff] at this
      rcases this with h1 | h1
      · rw [decide_eq_false_iff_not] at h1
        exact absurd rfl h1
      · exact h1
    constructor
    · intro h
      rw [collapseAux]
      split
      · rename_i hgt
        subst hgt
        rw [(ih).2 [] (by simp) (by
            rw [List.reverse_nil, List.nil_append]
            exact hgap_sg h)
          (hgap_tail h)]
        rw [List.reverse_nil, List.nil_append]
      · rw [(ih).1 (hgap_tail h)]
    · intro buf hbuf hsg h
      rw [collapseAux]
      split
      · rename_i hlt
        subst hlt
        have hbe : buf.reverse = [] := by
          match hb : buf.reverse with
          | [] => rfl
          | w :: rest =>
            rw [hb, List.cons_append, startsGap] at hsg
            have hw : isJsWs w = true :=
              hbuf w (List.mem_reverse.mp (hb ▸ List.mem_cons_self w rest))
            have hrest : ∀ d ∈ rest, isJsWs d = true := by
              intro d hd
              exact hbuf d (List.mem_reverse.mp (hb ▸ List.mem_cons_of_mem w hd))
            rw [hw, awaitLt_ws_append rest _ hrest, awaitLt] at hsg
            rw [if_pos rfl] at hsg
            cases hsg
        rw [hbe, List.nil_append]
        rw [(ih).1 (hgap_tail h)]
      · split
        · rename_i hnl hws
          have := (ih).2 (c :: buf) (by
            intro d hd
            rcases List.mem_cons.mp hd with h1 | h1
            · subst h1; assumption
            · exact hbuf d h1)
            (by
              rw [List.reverse_cons, List.append_assoc, List.singleton_append]
              exact hsg)
            (hgap_tail h)
          rw [this, List.reverse_cons, List.append_assoc, List.singleton_append]
        · rename_i hnl hws
          congr 1
          split
          · rename_i hgt
            subst hgt
            rw [(ih).2 [] (by simp) (by
                rw [List.reverse_nil, List.nil_append]
                exact hgap_sg h)
              (hgap_tail h)]
            rw [List.reverse_nil, List.nil_append]
          · rw [(ih).1 (hgap_tail h)]

theorem jsTrim_idem (l : Str) : jsTrim (jsTrim l) = jsTrim l := by
  rw [jsTrim, jsTrim]
  have hdrop : (((l.dropWhile isJsWs).rdropWhile isJsWs).dropWhile isJsWs) =
      (l.dropWhile isJsWs).rdropWhile isJsWs := by
    obtain ⟨t, ht⟩ := List.rdropWhile_prefix isJsWs (l.dropWhile isJsWs)
    match hx : (l.dropWhile isJsWs).rdropWhile isJsWs with
    | [] => rfl
    | y :: ys =>
      rw [List.dropWhile_cons]
      have hy : isJsWs y = false := by
        have hhead : (l.dropWhile isJsWs).dropWhile isJsWs = l.dropWhile isJsWs :=
          List.dropWhile_idempotent isJsWs l
        rw [hx] at ht
        rw [← ht] at hhead
        rw [List.cons_append, List.dropWhile_cons] at hhead
        by_contra hc
        rw [Bool.not_eq_false] at hc
        rw [if_pos hc] at hhead
        have hlen : (List.dropWhile isJsWs (ys ++ t)).length = (y :: (ys ++ t)).length :=
          by rw [hhead]
        have : (List.dropWhile isJsWs (ys ++ t)).length ≤ (ys ++ t).length :=
          List.Sublist.length_le (List.dropWhile_sublist _)
        rw [hlen] at this
        simp at this
      rw [hy]
      simp
  rw [hdrop, List.rdropWhile_idempotent]

theorem minifyChars_idem (s : Str) : minifyChars (minifyChars s) = minifyChars s := by
  have hnl : '\n' ∉ minifyChars s := by
    intro h
    have h1 := jsTrim_subset h
    rw [collapseChars] at h1
    have h2 := collapseAux_no_nl (stripNl s) none (by simp)
      (stripNlAux_no_nl s false)
    exact h2 h1
  have hgap : hasGap (minifyChars s) = false := by
    rw [minifyChars]
    apply jsTrim_hasGap
    rw [collapseChars]
    exact collapseAux_noGap (stripNl s) none (by simp)
  conv =>
    lhs
    rw [minifyChars]
  rw [stripNl, stripNlAux_id _ hnl, collapseChars,
    (collapseAux_id (minifyChars s)).1 hgap]
  rw [minifyChars, jsTrim_idem]

/-- Claim C9: minifyHTML is idempotent on its own output.  The first replace
leaves no line feed in the result; the second leaves no whitespace run between
a closing and an opening angle bracket; the final trim is idempotent; so a
second run of all three is the identity. -/
theorem claim9_minify_idempotent (s : String) :
    minifyHTML (minifyHTML s) = minifyHTML s := by
  unfold minifyHTML
  have : (String.mk (minifyChars s.data)).data = minifyChars s.data := rfl
  rw [this, minifyChars_idem]


theorem buildLines_shape : ∀ (toks : List Str) (i : Int), 0 ≤ i →
    ∃ ds : List Int, ds.all (fun d => decide (0 ≤ d)) = true ∧
      buildLines toks i = List.zipWith (fun d t => twoSpaces d ++ t) ds toks := by
  intro toks
  induction toks with
  | nil => intro i _; exact ⟨[], rfl, rfl⟩
  | cons tok rest ih =>
    intro i hi
    simp only [buildLines]
    split
    · obtain ⟨ds, h1, h2⟩ := ih (max 0 (i - 1)) (le_max_left 0 (i - 1))
      refine ⟨max 0 (i - 1) :: ds, ?_, ?_⟩
      · rw [List.all_cons, h1]
        simp
      · rw [h2, List.zipWith_cons_cons]
    · split
      · have hnext : (0 : Int) ≤
            (if (!("/>".data.isSuffixOf tok || voidTags.contains (tagNameOf tok)) &&
                !("<!".data.isPrefixOf tok)) = true then i + 1 else i) := by
          split
          · omega
          · exact hi
        obtain ⟨ds, h1, h2⟩ := ih _ hnext
        refine ⟨i :: ds, ?_, ?_⟩
        · rw [List.all_cons, h1]
          simpa using hi
        · rw [h2, List.zipWith_cons_cons]
      · obtain ⟨ds, h1, h2⟩ := ih i hi
        refine ⟨i :: ds, ?_, ?_⟩
        · rw [List.all_cons, h1]
          simpa using hi
        · rw [h2, List.zipWith_cons_cons]

/-- Claim C10: beautifyHTML is a total function (every definition here is
total), and its lines are exactly the tokens of the input, each preceded by a
non-negative number of two-space indentation units: the running level is an
integer clamped at zero before a closing tag is emitted, so it never goes
below zero even when the input has more closing than opening tags. -/
theorem claim10_beautify_nonneg_indent (html : String) :
    ∃ ds : List Int, ds.all (fun d => decide (0 ≤ d)) = true ∧
      beautifyLines html.data =
        List.zipWith (fun d t => twoSpaces d ++ t) ds (htmlTokens html.data) := by
  rw [beautifyLines]
  exact buildLines_shape (htmlTokens html.data) 0 le_rfl

end CleanHtml
